import Mathlib

/-!
Verification of the simdb trace replay/decode engine
(`python/viewer/model/data_retriever.py` and `python/viewer/model/simhier.py`).

The Python source is shallowly embedded:
  * byte strings become `List Nat` (each entry one byte, little-endian
    multi-byte integers decoded with `leDec`);
  * Python dicts whose keys are inserted in ascending tick order become
    association lists (`alGet` / `alInsert` reproduce dict lookup and
    dict assignment);
  * fallible Python code (KeyError, IndexError, struct.error, failing
    asserts, invalid IntEnum values, TypeError) returns `Except RErr`;
  * every replayer class of `data_retriever.py` becomes a constructor of
    `Replayer` with a `Replay` function translated line by line.

`struct.unpack` format codes are modelled for the unsigned integer codes
('B','H','I','Q' and the char/bool widths) as little-endian unsigned
decoding; the claims under verification only ever decode unsigned values.
-/

/-- Python exception outcomes of the decode engine. -/
inductive RErr where
  | keyError
  | typeError
  | structError
  | valueError
  | indexError
  | assertError
  | sqlError
  | fuel
  deriving DecidableEq, Repr

/-- Dynamic (Python) values flowing through `DataRetriever.Unpack`'s final
deserialisation loop. -/
inductive PyVal where
  | int (n : Nat)
  | str (s : String)
  | bytes (bs : List Nat)
  | list (l : List PyVal)
  | dictV (entries : List (String × PyVal))
  | none

/-- Little-endian unsigned decode of a byte list (`struct.unpack` with an
unsigned format code). -/
def leDec (bs : List Nat) : Nat :=
  bs.foldr (fun b acc => b + 256 * acc) 0

/-- Little-endian encoding of `v` on `w` bytes (used to build well-formed
record images). -/
def leBytes : Nat → Nat → List Nat
  | 0, _ => []
  | w + 1, v => v % 256 :: leBytes w (v / 256)

/-- Association-list lookup: Python `d.get(k)` / `d[k]` (the caller turns a
`none` into a KeyError where the source indexes the dict directly). -/
def alGet {κ α : Type} [DecidableEq κ] (l : List (κ × α)) (k : κ) : Option α :=
  (l.find? (fun p => decide (p.1 = k))).map (fun p => p.2)

/-- Association-list update: Python `d[k] = v` (replace if present, else
append; during a replay keys arrive in ascending order so this appends). -/
def alInsert {κ α : Type} [DecidableEq κ] (l : List (κ × α)) (k : κ) (v : α) :
    List (κ × α) :=
  if l.any (fun p => decide (p.1 = k)) then
    l.map (fun p => if p.1 = k then (k, v) else p)
  else
    l ++ [(k, v)]

/-- `PODReplayer.__GetLastTick` (and the identical private helpers of the
other replayers): scan `tick-1, tick-2, ..., 0` and return the first tick
present in `values_by_tick`. -/
def getLastTick {α : Type} (hist : List (Nat × α)) (tick : Nat) : Option Nat :=
  (List.range tick).reverse.find? (fun pt => hist.any (fun p => decide (p.1 = pt)))

/-- First index of `timeVals` holding a value `≥ lo` — the
`for i,time_val in enumerate(self._time_vals)` search in
`DataRetriever.Unpack`. -/
def findStartIdx (timeVals : List Nat) (lo : Nat) : Option Nat :=
  match timeVals with
  | [] => Option.none
  | tv :: rest =>
      if lo ≤ tv then some 0 else (findStartIdx rest lo).map (fun i => i + 1)

/-- The scan start tick computed by `DataRetriever.Unpack` for a lower time
bound `lo`: step back `heartbeat` positions (clamped at 0,
`start_idx = max(0, i - heartbeat)`) in the global distinct-tick list. -/
def findStartTime (timeVals : List Nat) (heartbeat lo : Nat) : Option Nat :=
  (findStartIdx timeVals lo).map (fun i => timeVals.getD (i - heartbeat) 0)

/-- Modelled from the spec: "locate the first globally-known tick ≥ the
bound, then step back `heartbeat` positions in the global sorted
distinct-tick list (clamped at index 0)".  The first index is taken
verbatim as the first list position whose tick satisfies the bound, and
the clamp is an integer `max` as the spec words it. -/
def specScanStart (timeVals : List Nat) (heartbeat lo : Nat) : Option Nat :=
  match (List.range timeVals.length).find?
      (fun j => decide (lo ≤ timeVals.getD j 0)) with
  | some i => some (timeVals.getD (max 0 ((i : Int) - heartbeat)).toNat 0)
  | Option.none => Option.none

/-! ## Replayer state machines -/

/-- `PODReplayer.Replay`.  History maps ticks to decoded integers; returns
the new history and `num_bytes_read`. -/
def podReplay (numBytes : Nat) (hist : List (Nat × Nat)) (tick : Nat)
    (blob : List Nat) (autoCollected : Bool) :
    Except RErr (List (Nat × Nat) × Nat) :=
  if numBytes < 16 ∨ autoCollected = false then
    if blob.length < numBytes then .error .structError
    else .ok (alInsert hist tick (leDec (blob.take numBytes)), numBytes)
  else
    match blob with
    | [] => .error .structError
    | a :: rest =>
      if a = 0 then
        if rest.length < numBytes then .error .structError
        else .ok (alInsert hist tick (leDec (rest.take numBytes)), 1 + numBytes)
      else if a = 1 then
        match getLastTick hist tick with
        | some pt =>
            match alGet hist pt with
            | some v => .ok (alInsert hist tick v, 1)
            | Option.none => .error .keyError
        | Option.none => .error .keyError
      else .error .valueError

/-- `ScalarStructReplayer.Replay`.  History maps ticks to raw struct byte
blobs (deserialised only later, in `Unpack`). -/
def ssReplay (numBytes : Nat) (hist : List (Nat × List Nat)) (tick : Nat)
    (blob : List Nat) (autoCollected : Bool) :
    Except RErr (List (Nat × List Nat) × Nat) :=
  if numBytes < 16 ∨ autoCollected = false then
    .ok (alInsert hist tick (blob.take numBytes), numBytes)
  else
    match blob with
    | [] => .error .structError
    | a :: rest =>
      if a = 0 then
        .ok (alInsert hist tick (rest.take numBytes), 1 + numBytes)
      else if a = 1 then
        match getLastTick hist tick with
        | some pt =>
            match alGet hist pt with
            | some v => .ok (alInsert hist tick v, 1)
            | Option.none => .error .keyError
        | Option.none => .error .keyError
      else .error .valueError

/-- State of a `ContigIterableReplayer`: the live list (`None` until a FULL
record has been seen since the last `Reset`) and the per-tick history of
deep copies. -/
structure ContigSt where
  values : Option (List (List Nat))
  hist : List (Nat × List (List Nat))
  deriving DecidableEq, Repr

/-- `ContigIterableReplayer.Replay`.  Action tags: ARRIVE=0, DEPART=1,
BOOKENDS=2, CHANGE=3, CARRY=4, FULL=5. -/
def cqReplay (numBytes : Nat) (st : ContigSt) (tick : Nat)
    (blob : List Nat) (autoCollected : Bool) :
    Except RErr (ContigSt × Nat) :=
  if autoCollected = false then .error .assertError
  else
    match blob with
    | [] => .error .structError
    | a :: rest =>
      if a = 5 then
        -- FULL: uint16 count, then count structs
        if rest.length < 2 then .error .structError
        else
          let size := leDec (rest.take 2)
          let values := (List.range size).map
            (fun i => ((blob.drop (3 + i * numBytes)).take numBytes))
          .ok (⟨some values, alInsert st.hist tick values⟩,
               3 + size * numBytes)
      else if a = 0 then
        -- ARRIVE: append one struct to the back
        match st.values with
        | some vs =>
            let vs' := vs ++ [rest.take numBytes]
            .ok (⟨some vs', alInsert st.hist tick vs'⟩, 1 + numBytes)
        | Option.none => .ok (st, 1 + numBytes)
      else if a = 1 then
        -- DEPART: pop from the front (IndexError on an empty list)
        match st.values with
        | some [] => .error .indexError
        | some (_ :: vs') =>
            .ok (⟨some vs', alInsert st.hist tick vs'⟩, 1)
        | Option.none => .ok (st, 1)
      else if a = 3 then
        -- CHANGE: uint16 bin index, then the changed struct
        if rest.length < 2 then .error .structError
        else
          let binIdx := leDec (rest.take 2)
          match st.values with
          | some vs =>
              if binIdx < vs.length then
                let vs' := vs.set binIdx ((blob.drop 3).take numBytes)
                .ok (⟨some vs', alInsert st.hist tick vs'⟩, 3 + numBytes)
              else .error .indexError
          | Option.none => .ok (st, 3 + numBytes)
      else if a = 2 then
        -- BOOKENDS: append to the back and pop from the front
        match st.values with
        | some vs =>
            match vs ++ [rest.take numBytes] with
            | [] => .error .indexError
            | _ :: vs' =>
                .ok (⟨some vs', alInsert st.hist tick vs'⟩, 1 + numBytes)
        | Option.none => .ok (st, 1 + numBytes)
      else if a = 4 then
        -- CARRY: copy the previous tick's list
        match st.values with
        | some _ =>
            match getLastTick st.hist tick with
            | some pt =>
                match alGet st.hist pt with
                | some vs =>
                    .ok (⟨st.values, alInsert st.hist tick vs⟩, 1)
                | Option.none => .error .keyError
            | Option.none => .error .keyError
        | Option.none => .ok (st, 1)
      else .error .valueError

/-- State of a `SparseIterableReplayer`: `values` has one slot per bucket
(`None` = empty); it is (re)filled only by `Reset`, not per tick. -/
structure SparseSt where
  values : List (Option (List Nat))
  hist : List (Nat × List (Option (List Nat)))
  deriving DecidableEq, Repr

/-- One bucket write of `SparseIterableReplayer.Replay`'s decode loop
(`self.values[bin_idx] = struct_blob` guarded by the bounds assert). -/
def spWrite (capacity : Nat) (vals : List (Option (List Nat)))
    (entry : Nat × List Nat) : Except RErr (List (Option (List Nat))) :=
  if entry.1 < capacity ∧ entry.1 < vals.length then
    .ok (vals.set entry.1 (some entry.2))
  else .error .assertError

/-- `SparseIterableReplayer.Replay`: uint16 valid count, a block of uint16
bucket indices, then the struct payload block. -/
def spReplay (numBytes capacity : Nat) (st : SparseSt) (tick : Nat)
    (blob : List Nat) (autoCollected : Bool) :
    Except RErr (SparseSt × Nat) :=
  if autoCollected = false then .error .assertError
  else if blob.length < 2 then .error .structError
  else
    let size := leDec (blob.take 2)
    if blob.length < 2 + size * 2 then .error .structError
    else
      let entries := (List.range size).map (fun i =>
        (leDec ((blob.drop (2 + i * 2)).take 2),
         (blob.drop (2 + size * 2 + i * numBytes)).take numBytes))
      match entries.foldlM (spWrite capacity) st.values with
      | .error e => .error e
      | .ok vals =>
          .ok (⟨vals, alInsert st.hist tick vals⟩,
               2 + size * 2 + size * numBytes)

/-- One replayer per tracked element (`_replayers_by_elem_path` values). -/
inductive Replayer where
  | pod (numBytes : Nat) (hist : List (Nat × Nat))
  | scalarStruct (numBytes : Nat) (hist : List (Nat × List Nat))
  | contig (numBytes capacity : Nat) (st : ContigSt)
  | sparse (numBytes capacity : Nat) (st : SparseSt)
  deriving DecidableEq, Repr

/-- `Reset` of each replayer class. -/
def Replayer.reset : Replayer → Replayer
  | .pod w _ => .pod w []
  | .scalarStruct w _ => .scalarStruct w []
  | .contig w cap _ => .contig w cap ⟨Option.none, []⟩
  | .sparse w cap _ => .sparse w cap ⟨List.replicate cap Option.none, []⟩

/-- Dispatch of `Replay` over the replayer classes; result carries the
updated replayer and `num_bytes_read`. -/
def Replayer.Replay (r : Replayer) (tick : Nat) (blob : List Nat)
    (autoCollected : Bool) : Except RErr (Replayer × Nat) :=
  match r with
  | .pod w hist =>
      (podReplay w hist tick blob autoCollected).map
        (fun p => (.pod w p.1, p.2))
  | .scalarStruct w hist =>
      (ssReplay w hist tick blob autoCollected).map
        (fun p => (.scalarStruct w p.1, p.2))
  | .contig w cap st =>
      (cqReplay w st tick blob autoCollected).map
        (fun p => (.contig w cap p.1, p.2))
  | .sparse w cap st =>
      (spReplay w cap st tick blob autoCollected).map
        (fun p => (.sparse w cap p.1, p.2))

/-! ## Field and element deserialisers (`*Deserializer` classes) -/

/-- A struct field's deserialiser: POD (`PODDeserializer`), enum
(`EnumDeserializer`, with its int→string table), or interned string
(`StringDeserializer`, stored as a uint32 index). -/
inductive FieldDes where
  | podD (numBytes : Nat)
  | enumD (numBytes : Nat) (stringsByInt : List (Nat × String))
  | stringD (stringsByInt : List (Nat × String))
  deriving DecidableEq, Repr

/-- Byte width of a field (`StructDeserializer.NUM_BYTES_MAP` applied to the
field deserialiser's format code). -/
def fieldWidth : FieldDes → Nat
  | .podD w => w
  | .enumD w _ => w
  | .stringD _ => 4

/-- `Deserialize` of a field deserialiser on a byte window.  `struct.unpack`
demands at least the declared width; enum/string table misses are dict
KeyErrors. -/
def fieldDeserialize : FieldDes → List Nat → Except RErr PyVal
  | .podD w, bs =>
      if bs.length < w then .error .structError
      else .ok (.int (leDec (bs.take w)))
  | .enumD w table, bs =>
      if bs.length < w then .error .structError
      else
        match alGet table (leDec (bs.take w)) with
        | some s => .ok (.str s)
        | Option.none => .error .keyError
  | .stringD table, bs =>
      if bs.length < 4 then .error .structError
      else
        match alGet table (leDec (bs.take 4)) with
        | some s => .ok (.str s)
        | Option.none => .error .keyError

/-- Cursor loop of `StructDeserializer.Deserialize`: every declared field
advances `tiny_start` by its width; only fields in the visibility list are
decoded and recorded. -/
def sdGo (blob : List Nat) (visible : List String) :
    List (String × FieldDes) → Nat → List (String × PyVal) →
    Except RErr (List (String × PyVal))
  | [], _, res => .ok res
  | (nm, fd) :: rest, start, res =>
      let tiny := (blob.drop start).take (fieldWidth fd)
      if visible.contains nm then
        match fieldDeserialize fd tiny with
        | .ok v => sdGo blob visible rest (start + fieldWidth fd) (res ++ [(nm, v)])
        | .error e => .error e
      else sdGo blob visible rest (start + fieldWidth fd) res

/-- `StructDeserializer.Deserialize`: asserts a non-empty visibility list,
then runs the cursor loop over the declared fields. -/
def structDeserialize (fields : List (String × FieldDes))
    (visible : List String) (blob : List Nat) :
    Except RErr (List (String × PyVal)) :=
  if visible.length = 0 then .error .assertError
  else sdGo blob visible fields 0 []

/-- The deserialiser attached to the requested element in `Unpack`
(`GetDeserializer`): POD scalar or struct. -/
inductive Des where
  | podDes (numBytes : Nat)
  | structDes (fields : List (String × FieldDes)) (visible : List String)
  deriving DecidableEq, Repr

/-- Apply an element deserialiser to one dynamic value from the history.
`PODDeserializer.Deserialize` slices its argument (`data_blob[:n]`), which
is a TypeError unless the value is bytes; `StructDeserializer.Deserialize`
likewise subscripts its argument. -/
def desApply : Des → PyVal → Except RErr PyVal
  | .podDes w, .bytes bs =>
      if bs.length < w then .error .structError
      else .ok (.int (leDec (bs.take w)))
  | .podDes _, _ => .error .typeError
  | .structDes fields visible, .bytes bs =>
      (structDeserialize fields visible bs).map .dictV
  | .structDes _ _, _ => .error .typeError

/-- Python `for x in v`: lists iterate their elements, bytes iterate as
ints, strings iterate as 1-character strings; ints and None are not
iterable (TypeError). -/
def pyIter : PyVal → Except RErr (List PyVal)
  | .list l => .ok l
  | .bytes bs => .ok (bs.map .int)
  | .str s => .ok (s.toList.map (fun c => .str (String.mk [c])))
  | .int _ => .error .typeError
  | .dictV _ => .error .typeError
  | .none => .error .typeError

/-! ## The query engine (`DataRetriever.Unpack`) -/

/-- Everything `Unpack` reads: the global distinct-tick list, the heartbeat
constant, the per-tick records (tick, uncompressed blob) in ascending tick
order, the replayers keyed by collectable id, the auto-collected id set,
the path → collectable id map, and the per-id element deserialiser. -/
structure UnpackDB where
  timeVals : List Nat
  heartbeat : Nat
  records : List (Nat × List Nat)
  reps0 : List (Nat × Replayer)
  autoCids : List Nat
  paths : List (String × Nat)
  desOf : List (Nat × Des)

/-- The SQL row filter built by `Unpack`: with a time range, rows from the
computed scan start tick up to the upper bound (a lower bound with no
tick ≥ it makes the SQL text compare against `None`, an OperationalError). -/
def unpackFilterRecords (db : UnpackDB) (timeRange : Option (Nat × Nat)) :
    Except RErr (List (Nat × List Nat)) :=
  match timeRange with
  | Option.none => .ok db.records
  | some (lo, hi) =>
      match findStartTime db.timeVals db.heartbeat lo with
      | some s =>
          .ok (db.records.filter (fun r => decide (s ≤ r.1 ∧ r.1 ≤ hi)))
      | Option.none => .error .sqlError

/-- Inner demultiplex loop of `Unpack` over one tick's blob: read a uint16
collectable id, dispatch to that id's replayer, advance by the consumed
byte count; stop on a zero count or an exhausted blob.  Fuel bounds the
iteration count (each pass consumes at least the 2 id bytes). -/
def demuxGo (autoCids : List Nat) (tick : Nat) :
    Nat → List Nat → List (Nat × Replayer) →
    Except RErr (List (Nat × Replayer))
  | 0, _, _ => .error .fuel
  | fuel + 1, blob, reps =>
      if blob.length < 2 then .error .structError
      else
        let cid := leDec (blob.take 2)
        let rest := blob.drop 2
        match alGet reps cid with
        | Option.none => .error .keyError
        | some r =>
            match r.Replay tick rest (autoCids.contains cid) with
            | .error e => .error e
            | .ok (r', n) =>
                let reps' := alInsert reps cid r'
                if n = 0 then .ok reps'
                else if (rest.drop n).length = 0 then .ok reps'
                else demuxGo autoCids tick fuel (rest.drop n) reps'

/-- One tick of the demultiplex loop, with enough fuel for its blob. -/
def demuxTick (autoCids : List Nat) (reps : List (Nat × Replayer))
    (tickBlob : Nat × List Nat) : Except RErr (List (Nat × Replayer)) :=
  demuxGo autoCids tickBlob.1 (tickBlob.2.length + 1) tickBlob.2 reps

/-- Replay phase of `Unpack`: reset every replayer, then demultiplex the
filtered records in ascending tick order. -/
def unpackReplay (db : UnpackDB) (recs : List (Nat × List Nat)) :
    Except RErr (List (Nat × Replayer)) :=
  recs.foldlM (demuxTick db.autoCids)
    (db.reps0.map (fun p => (p.1, p.2.reset)))

/-- History of a replayer as the dynamic values `Unpack`'s final loop reads
back (`values_by_tick`): ints for PODs, bytes for scalar structs, lists of
bytes for contiguous containers, lists with `None` holes for sparse ones. -/
def Replayer.histPy : Replayer → List (Nat × PyVal)
  | .pod _ hist => hist.map (fun p => (p.1, .int p.2))
  | .scalarStruct _ hist => hist.map (fun p => (p.1, .bytes p.2))
  | .contig _ _ st => st.hist.map (fun p => (p.1, .list (p.2.map .bytes)))
  | .sparse _ _ st =>
      st.hist.map (fun p =>
        (p.1, .list (p.2.map (fun o =>
          match o with
          | some bs => PyVal.bytes bs
          | Option.none => PyVal.none))))

/-- Insertion of a tick into an ascending list (`ticks.sort()`). -/
def insertTick (t : Nat) : List Nat → List Nat
  | [] => [t]
  | x :: xs => if t ≤ x then t :: x :: xs else x :: insertTick t xs

/-- `ticks.sort()`. -/
def sortTicks : List Nat → List Nat
  | [] => []
  | x :: xs => insertTick x (sortTicks xs)

/-- Per-tick body of `Unpack`'s final loop: iterate the history entry and
deserialise each element of it. -/
def unpackTickVals (des : Des) (hist : List (Nat × PyVal)) (tick : Nat) :
    Except RErr (List PyVal) :=
  match alGet hist tick with
  | Option.none => .error .keyError
  | some pv =>
      match pyIter pv with
      | .error e => .error e
      | .ok items => items.mapM (desApply des)

/-- Extraction phase of `Unpack`: look up the requested element's replayer
and deserialiser, sort its recorded ticks, keep those inside the caller's
range, and deserialise each kept tick's entry. -/
def unpackExtract (db : UnpackDB) (reps : List (Nat × Replayer))
    (elemPath : String) (timeRange : Option (Nat × Nat)) :
    Except RErr (List Nat × List (List PyVal)) :=
  match alGet db.paths elemPath with
  | Option.none => .error .keyError
  | some cid =>
      match alGet reps cid with
      | Option.none => .error .keyError
      | some rep =>
          match alGet db.desOf cid with
          | Option.none => .error .keyError
          | some des =>
              let hist := rep.histPy
              let ticks := sortTicks (hist.map (fun p => p.1))
              let kept := ticks.filter (fun t =>
                match timeRange with
                | Option.none => true
                | some (lo, hi) => decide (lo ≤ t ∧ t ≤ hi))
              match kept.mapM (unpackTickVals des hist) with
              | .error e => .error e
              | .ok vals => .ok (kept, vals)

/-- `DataRetriever.Unpack`: filter the tick rows, replay every record of
every element, then read back and deserialise the requested element's
history. -/
def unpack (db : UnpackDB) (elemPath : String)
    (timeRange : Option (Nat × Nat)) :
    Except RErr (List Nat × List (List PyVal)) :=
  match unpackFilterRecords db timeRange with
  | .error e => .error e
  | .ok recs =>
      match unpackReplay db recs with
      | .error e => .error e
      | .ok reps => unpackExtract db reps elemPath timeRange

/-! ## `SimHierarchy.GetElemID` and the utilisation cache -/

/-- `SimHierarchy.GetElemID`: a plain `dict.get`, `None` on a miss. -/
def getElemID (elemIdsByPath : List (String × Nat)) (elemPath : String) :
    Option Nat :=
  alGet elemIdsByPath elemPath

/-- The single-slot utilisation cache of `DataRetriever`
(`_cached_utiliz_sizes`, `_cached_utiliz_time_val`); `__init__` leaves the
cached tick `None`, and nothing in `DataRetriever` ever assigns it. -/
structure UtilizCache where
  sizes : List (Nat × Nat)
  timeVal : Option Nat
  deriving DecidableEq, Repr

/-- `DataRetriever.GetIterableSizesByCollectionID`: return the cached dict
when the cached tick matches, else a dict mapping every container id to 0.
The method reads no records and assigns neither cache field. -/
def getIterableSizesByCollectionID (cache : UtilizCache)
    (containerIDs : List Nat) (timeVal : Nat) : List (Nat × Nat) :=
  match cache.timeVal with
  | some ct => if timeVal = ct then cache.sizes
               else containerIDs.map (fun id => (id, 0))
  | Option.none => containerIDs.map (fun id => (id, 0))

/-! ## Basic lemmas about the dict model -/

theorem find?_congr {α : Type} (l : List α) (p q : α → Bool)
    (h : ∀ x ∈ l, p x = q x) : l.find? p = l.find? q := by
  induction l with
  | nil => rfl
  | cons a l ih =>
      simp only [List.find?_cons]
      rw [h a (List.mem_cons_self a l)]
      cases q a with
      | true => rfl
      | false => exact ih (fun x hx => h x (List.mem_cons_of_mem a hx))

theorem find?_append {α : Type} (l m : List α) (p : α → Bool) :
    (l ++ m).find? p = ((l.find? p).orElse (fun _ => m.find? p)) := by
  induction l with
  | nil => rfl
  | cons a l ih =>
      simp only [List.cons_append, List.find?_cons]
      cases p a with
      | true => rfl
      | false => exact ih

theorem alGet_append {κ α : Type} [DecidableEq κ] (l m : List (κ × α)) (k : κ) :
    alGet (l ++ m) k = ((alGet l k).orElse (fun _ => alGet m k)) := by
  simp only [alGet, find?_append]
  cases l.find? (fun p => decide (p.1 = k)) <;> rfl

theorem alGet_eq_none_of_forall {κ α : Type} [DecidableEq κ]
    (l : List (κ × α)) (k : κ) (h : ∀ p ∈ l, p.1 ≠ k) : alGet l k = Option.none := by
  induction l with
  | nil => rfl
  | cons a l ih =>
      simp only [alGet, List.find?_cons]
      have : (decide (a.1 = k)) = false := by
        simp [h a (List.mem_cons_self a l)]
      rw [this]
      exact ih (fun p hp => h p (List.mem_cons_of_mem a hp))

theorem alGet_append_left {κ α : Type} [DecidableEq κ]
    (l m : List (κ × α)) (k : κ) (v : α) (h : alGet l k = some v) :
    alGet (l ++ m) k = some v := by
  rw [alGet_append, h]; rfl

theorem alGet_append_right {κ α : Type} [DecidableEq κ]
    (l m : List (κ × α)) (k : κ) (h : ∀ p ∈ l, p.1 ≠ k) :
    alGet (l ++ m) k = alGet m k := by
  rw [alGet_append, alGet_eq_none_of_forall l k h]; rfl

theorem alGet_isSome_of_mem {κ α : Type} [DecidableEq κ]
    (l : List (κ × α)) (k : κ) (h : k ∈ l.map Prod.fst) :
    ∃ v, alGet l k = some v := by
  induction l with
  | nil => simp at h
  | cons a l ih =>
      simp only [alGet, List.find?_cons]
      by_cases hk : a.1 = k
      · rw [decide_eq_true hk]; exact ⟨a.2, rfl⟩
      · rw [decide_eq_false hk]
        have : k ∈ l.map Prod.fst := by
          simp only [List.map_cons, List.mem_cons] at h
          rcases h with h | h
          · exact absurd h.symm hk
          · exact h
        exact ih this

theorem alGet_mem_of_some {κ α : Type} [DecidableEq κ]
    (l : List (κ × α)) (k : κ) (v : α) (h : alGet l k = some v) :
    (k, v) ∈ l ∧ k ∈ l.map Prod.fst := by
  induction l with
  | nil => simp [alGet] at h
  | cons a l ih =>
      obtain ⟨a1, a2⟩ := a
      simp only [alGet, List.find?_cons] at h
      by_cases hk : a1 = k
      · subst hk
        simp at h
        subst h
        exact ⟨List.mem_cons_self _ _, by simp⟩
      · rw [decide_eq_false hk] at h
        have := ih h
        exact ⟨List.mem_cons_of_mem _ this.1, by simp [this.2]⟩

theorem alInsert_append_of_fresh {κ α : Type} [DecidableEq κ]
    (l : List (κ × α)) (k : κ) (v : α) (h : ∀ p ∈ l, p.1 ≠ k) :
    alInsert l k v = l ++ [(k, v)] := by
  have : l.any (fun p => decide (p.1 = k)) = false := by
    rw [List.any_eq_false]
    intro p hp
    simp [h p hp]
  simp [alInsert, this]

/-- The first matching entry of a key-unique association list is any entry
it contains with that key. -/
theorem alGet_of_mem_nodup {κ α : Type} [DecidableEq κ]
    (l : List (κ × α)) (k : κ) (v : α)
    (hnd : (l.map Prod.fst).Nodup) (hmem : (k, v) ∈ l) :
    alGet l k = some v := by
  induction l with
  | nil => simp at hmem
  | cons a l ih =>
      simp only [List.map_cons, List.nodup_cons] at hnd
      rcases List.mem_cons.mp hmem with h | h
      · subst h
        simp [alGet, List.find?_cons]
      · have hk : a.1 ≠ k := by
          intro he
          exact hnd.1 (he ▸ (List.mem_map.mpr ⟨(k, v), h, rfl⟩))
        simp only [alGet, List.find?_cons, decide_eq_false hk]
        exact ih hnd.2 h

/-! ## Lemmas about `getLastTick` -/

theorem find?_const_false {α : Type} (l : List α) :
    l.find? (fun _ => false) = Option.none := by
  induction l with
  | nil => rfl
  | cons a l ih => simp [List.find?_cons]

theorem getLastTick_nil {α : Type} (t : Nat) :
    getLastTick ([] : List (Nat × α)) t = Option.none :=
  find?_const_false _

theorem getLastTick_lt {α : Type} (hist : List (Nat × α)) (t pt : Nat)
    (h : getLastTick hist t = some pt) : pt < t := by
  have hmem := List.mem_of_find?_eq_some h
  have := List.mem_reverse.mp hmem
  exact List.mem_range.mp this

theorem getLastTick_mem {α : Type} (hist : List (Nat × α)) (t pt : Nat)
    (h : getLastTick hist t = some pt) : pt ∈ hist.map Prod.fst := by
  have := List.find?_some h
  rw [List.any_eq_true] at this
  rcases this with ⟨p, hp, he⟩
  exact List.mem_map.mpr ⟨p, hp, of_decide_eq_true he⟩

/-- Countdown search: if `m < t` satisfies `P` and nothing strictly between
`m` and `t` does, the scan from `t-1` down to `0` stops at `m`. -/
theorem findMax_range_reverse (P : Nat → Bool) :
    ∀ (t m : Nat), m < t → P m = true →
      (∀ q, m < q → q < t → P q = false) →
      (List.range t).reverse.find? P = some m := by
  intro t
  induction t with
  | zero => intro m hm; omega
  | succ n ih =>
      intro m hm hPm hq
      rw [List.range_succ, List.reverse_append]
      simp only [List.reverse_cons, List.reverse_nil, List.nil_append,
        List.cons_append, List.find?_cons]
      by_cases he : m = n
      · subst he
        rw [hPm]
      · have hmn : m < n := by omega
        have : P n = false := hq n hmn (Nat.lt_succ_self n)
        rw [this]
        exact ih m hmn hPm (fun q h1 h2 => hq q h1 (Nat.lt_succ_of_lt h2))

/-- `getLastTick` only looks at which keys below `t` are present. -/
theorem getLastTick_congr {α β : Type}
    (hist : List (Nat × α)) (hist' : List (Nat × β)) (t : Nat)
    (h : ∀ q, q < t →
      (hist.any (fun p => decide (p.1 = q)) = hist'.any (fun p => decide (p.1 = q)))) :
    getLastTick hist t = getLastTick hist' t := by
  unfold getLastTick
  apply find?_congr
  intro x hx
  exact h x (List.mem_range.mp (List.mem_reverse.mp hx))

theorem any_key_eq_true {α : Type} (hist : List (Nat × α)) (q : Nat)
    (h : q ∈ hist.map Prod.fst) :
    hist.any (fun p => decide (p.1 = q)) = true := by
  rw [List.any_eq_true]
  rcases List.mem_map.mp h with ⟨p, hp, he⟩
  exact ⟨p, hp, decide_eq_true he⟩

theorem any_key_eq_false {α : Type} (hist : List (Nat × α)) (q : Nat)
    (h : q ∉ hist.map Prod.fst) :
    hist.any (fun p => decide (p.1 = q)) = false := by
  rw [List.any_eq_false]
  intro p hp
  simp only [decide_eq_true_eq]
  intro he
  exact h (List.mem_map.mpr ⟨p, hp, he⟩)

/-- On a history whose keys are all `< t`, with greatest key `m`, the
countdown finds exactly `m`. -/
theorem getLastTick_eq_max {α : Type} (hist : List (Nat × α)) (t m : Nat)
    (hmem : m ∈ hist.map Prod.fst)
    (hlt : ∀ p ∈ hist, p.1 < t)
    (hmax : ∀ p ∈ hist, p.1 ≤ m) :
    getLastTick hist t = some m := by
  unfold getLastTick
  apply findMax_range_reverse
  · rcases List.mem_map.mp hmem with ⟨p, hp, he⟩
    exact he ▸ hlt p hp
  · exact any_key_eq_true hist m hmem
  · intro q h1 _
    apply any_key_eq_false
    intro hqmem
    rcases List.mem_map.mp hqmem with ⟨p, hp, he⟩
    have := hmax p hp
    omega

/-! ## Action-level view of the scalar/struct replayer (WRITE / CARRY) -/

/-- One record of a width-≥16, auto-collected scalar/struct element. -/
inductive SAct where
  | write (v : List Nat)
  | carry
  deriving DecidableEq, Repr

/-- Byte image of a scalar/struct record: tag 0 + payload for WRITE,
tag 1 alone for CARRY. -/
def encodeSAct : SAct → List Nat
  | .write v => 0 :: v
  | .carry => [1]

/-- One `ScalarStructReplayer.Replay` call on an encoded record. -/
def sStep (w : Nat) (hist : List (Nat × List Nat)) (r : Nat × SAct) :
    Except RErr (List (Nat × List Nat)) :=
  (ssReplay w hist r.1 (encodeSAct r.2) true).map (fun p => p.1)

/-- Replay of a whole record stream by the scalar/struct replayer. -/
def sRun (w : Nat) (hist : List (Nat × List Nat)) :
    List (Nat × SAct) → Except RErr (List (Nat × List Nat))
  | [] => .ok hist
  | r :: rs =>
      match sStep w hist r with
      | .error e => .error e
      | .ok h => sRun w h rs

theorem ssReplay_write16 (w : Nat) (hist : List (Nat × List Nat)) (t : Nat)
    (v : List Nat) (hw : 16 ≤ w) :
    ssReplay w hist t (0 :: v) true = .ok (alInsert hist t (v.take w), 1 + w) := by
  unfold ssReplay
  rw [if_neg (by simp; omega)]
  rfl

theorem ssReplay_carry16 (w : Nat) (hist : List (Nat × List Nat)) (t : Nat)
    (hw : 16 ≤ w) :
    ssReplay w hist t [1] true =
      (match getLastTick hist t with
       | some pt =>
           match alGet hist pt with
           | some v => Except.ok (alInsert hist t v, 1)
           | Option.none => Except.error RErr.keyError
       | Option.none => Except.error RErr.keyError) := by
  unfold ssReplay
  rw [if_neg (by simp; omega)]
  rfl

theorem sStep_write (w : Nat) (hist : List (Nat × List Nat)) (t : Nat)
    (v : List Nat) (hw : 16 ≤ w) (hv : v.length = w) :
    sStep w hist (t, .write v) = .ok (alInsert hist t v) := by
  simp only [sStep, encodeSAct, ssReplay_write16 w hist t v hw]
  rw [← hv, List.take_length]
  rfl

theorem sStep_write_inv (w : Nat) (hist h : List (Nat × List Nat)) (t : Nat)
    (v : List Nat) (hw : 16 ≤ w)
    (hok : sStep w hist (t, .write v) = .ok h) :
    h = alInsert hist t (v.take w) := by
  simp only [sStep, encodeSAct, ssReplay_write16 w hist t v hw] at hok
  simp only [Except.map] at hok
  exact (Except.ok.inj hok).symm

theorem sStep_carry_inv (w : Nat) (hist h : List (Nat × List Nat)) (t : Nat)
    (hw : 16 ≤ w) (hok : sStep w hist (t, .carry) = .ok h) :
    ∃ pt v, getLastTick hist t = some pt ∧ alGet hist pt = some v ∧
      h = alInsert hist t v := by
  simp only [sStep, encodeSAct, ssReplay_carry16 w hist t hw] at hok
  cases hpt : getLastTick hist t with
  | none => rw [hpt] at hok; exact absurd hok (by simp [Except.map])
  | some pt =>
      rw [hpt] at hok
      dsimp only at hok
      cases hv : alGet hist pt with
      | none => rw [hv] at hok; exact absurd hok (by simp [Except.map])
      | some v =>
          rw [hv] at hok
          dsimp only at hok
          simp only [Except.map] at hok
          exact ⟨pt, v, rfl, hv, (Except.ok.inj hok).symm⟩

theorem sStep_carry_ok (w : Nat) (hist : List (Nat × List Nat)) (t pt : Nat)
    (v : List Nat) (hw : 16 ≤ w)
    (hpt : getLastTick hist t = some pt) (hv : alGet hist pt = some v) :
    sStep w hist (t, .carry) = .ok (alInsert hist t v) := by
  simp only [sStep, encodeSAct, ssReplay_carry16 w hist t hw]
  rw [hpt]
  dsimp only
  rw [hv]
  rfl

theorem alGet_cons_self {κ α : Type} [DecidableEq κ] (k : κ) (v : α)
    (l : List (κ × α)) : alGet ((k, v) :: l) k = some v := by
  simp [alGet, List.find?_cons]

theorem pairwise_fst_le_getLastQ {α : Type} :
    ∀ (hist : List (Nat × α)) (q : Nat × α),
      hist.getLast? = some q →
      List.Pairwise (· < ·) (hist.map Prod.fst) →
      ∀ p ∈ hist, p.1 ≤ q.1 := by
  intro hist
  induction hist with
  | nil => intro q hq; simp at hq
  | cons a l ih =>
      intro q hq hp p hmem
      cases l with
      | nil =>
          simp only [List.getLast?_singleton] at hq
          rcases List.mem_singleton.mp hmem with rfl
          rw [Option.some.inj hq]
      | cons b m =>
          rw [List.getLast?_cons_cons] at hq
          rw [List.map_cons, List.pairwise_cons] at hp
          rcases List.mem_cons.mp hmem with rfl | hmem2
          · have hqmem : q ∈ b :: m := by
              rcases List.mem_getLast?_eq_getLast
                (show q ∈ (b :: m).getLast? from by rw [hq]; rfl) with ⟨hne, hqe⟩
              rw [hqe]
              exact List.getLast_mem hne
            have := hp.1 q.1 (List.mem_map.mpr ⟨q, hqmem, rfl⟩)
            omega
          · exact ih q hq hp.2 p hmem2

theorem nodup_fst_of_pairwise {α : Type} (hist : List (Nat × α))
    (hp : List.Pairwise (· < ·) (hist.map Prod.fst)) :
    (hist.map Prod.fst).Nodup :=
  hp.imp (fun h => Nat.ne_of_lt h)

/-- On a sorted nonempty history with keys below `t`, `__GetLastTick` finds
the last entry's key, whose value the dict lookup returns. -/
theorem getLastTick_getLast {α : Type} (hist : List (Nat × α)) (t : Nat)
    (h : hist ≠ [])
    (hp : List.Pairwise (· < ·) (hist.map Prod.fst))
    (hlt : ∀ p ∈ hist, p.1 < t) :
    getLastTick hist t = some ((hist.getLast h).1) ∧
      alGet hist ((hist.getLast h).1) = some ((hist.getLast h).2) := by
  have hmem : (hist.getLast h) ∈ hist := List.getLast_mem h
  have hq : hist.getLast? = some (hist.getLast h) :=
    List.getLast?_eq_getLast_of_ne_nil h
  constructor
  · exact getLastTick_eq_max hist t ((hist.getLast h).1)
      (List.mem_map.mpr ⟨hist.getLast h, hmem, rfl⟩) hlt
      (pairwise_fst_le_getLastQ hist _ hq hp)
  · exact alGet_of_mem_nodup hist _ _ (nodup_fst_of_pairwise hist hp)
      (by rw [Prod.mk.eta]; exact hmem)

theorem sRun_cons_inv (w : Nat) (hist H : List (Nat × List Nat))
    (r : Nat × SAct) (rs : List (Nat × SAct))
    (hrun : sRun w hist (r :: rs) = .ok H) :
    ∃ h1, sStep w hist r = .ok h1 ∧ sRun w h1 rs = .ok H := by
  unfold sRun at hrun
  cases hstep : sStep w hist r with
  | error e => rw [hstep] at hrun; exact absurd hrun (by simp)
  | ok h1 =>
      rw [hstep] at hrun
      exact ⟨h1, rfl, hrun⟩

theorem sRun_append (w : Nat) :
    ∀ (rs1 rs2 : List (Nat × SAct)) (hist H : List (Nat × List Nat)),
      sRun w hist (rs1 ++ rs2) = .ok H →
      ∃ H1, sRun w hist rs1 = .ok H1 ∧ sRun w H1 rs2 = .ok H := by
  intro rs1
  induction rs1 with
  | nil => intro rs2 hist H h; exact ⟨hist, rfl, h⟩
  | cons r rs1 ih =>
      intro rs2 hist H h
      rw [List.cons_append] at h
      rcases sRun_cons_inv w hist H r (rs1 ++ rs2) h with ⟨h1, hstep, hrun⟩
      rcases ih rs2 h1 H hrun with ⟨H1, h1run, h2run⟩
      refine ⟨H1, ?_, h2run⟩
      unfold sRun
      rw [hstep]
      exact h1run

/-- A successful step on a fresh tick appends one entry. -/
theorem sStep_shape (w : Nat) (hw : 16 ≤ w) (hist h : List (Nat × List Nat))
    (t : Nat) (a : SAct) (hfresh : ∀ p ∈ hist, p.1 ≠ t)
    (hok : sStep w hist (t, a) = .ok h) :
    ∃ vv, h = hist ++ [(t, vv)] := by
  cases a with
  | write v =>
      have := sStep_write_inv w hist h t v hw hok
      exact ⟨v.take w, by rw [this, alInsert_append_of_fresh hist t _ hfresh]⟩
  | carry =>
      rcases sStep_carry_inv w hist h t hw hok with ⟨pt, v, _, _, hh⟩
      exact ⟨v, by rw [hh, alInsert_append_of_fresh hist t _ hfresh]⟩

/-- A successful run appends one entry per record, in record order. -/
theorem sRun_shape (w : Nat) (hw : 16 ≤ w) :
    ∀ (rs : List (Nat × SAct)) (hist H : List (Nat × List Nat)),
      List.Pairwise (· < ·) (hist.map Prod.fst ++ rs.map Prod.fst) →
      sRun w hist rs = .ok H →
      ∃ Δ, H = hist ++ Δ ∧ Δ.map Prod.fst = rs.map Prod.fst := by
  intro rs
  induction rs with
  | nil =>
      intro hist H _ hrun
      refine ⟨[], ?_, rfl⟩
      have : Except.ok (ε := RErr) hist = .ok H := hrun
      simpa using (Except.ok.inj this).symm
  | cons r rs ih =>
      intro hist H hp hrun
      obtain ⟨t, a⟩ := r
      rcases sRun_cons_inv w hist H (t, a) rs hrun with ⟨h1, hstep, hrun'⟩
      have hsplit := List.pairwise_append.mp hp
      have hfresh : ∀ p ∈ hist, p.1 ≠ t := by
        intro p hmem
        have := hsplit.2.2 p.1 (List.mem_map.mpr ⟨p, hmem, rfl⟩) t
          (by simp)
        omega
      rcases sStep_shape w hw hist h1 t a hfresh hstep with ⟨vv, hh1⟩
      subst hh1
      have hp' : List.Pairwise (· < ·)
          ((hist ++ [(t, vv)]).map Prod.fst ++ rs.map Prod.fst) := by
        simp only [List.map_append, List.map_cons, List.map_nil]
        rw [List.append_assoc]
        simpa using hp
      rcases ih (hist ++ [(t, vv)]) H hp' hrun' with ⟨Δ, hH, hkeys⟩
      refine ⟨(t, vv) :: Δ, ?_, ?_⟩
      · rw [hH, List.append_assoc]; rfl
      · simp [hkeys]

theorem sStep_write_eval (w : Nat) (hist : List (Nat × List Nat)) (t : Nat)
    (v : List Nat) (hw : 16 ≤ w) :
    sStep w hist (t, .write v) = .ok (alInsert hist t (v.take w)) := by
  simp only [sStep, encodeSAct, ssReplay_write16 w hist t v hw]
  rfl

/-- A run from a nonempty sorted history never fails: WRITE always
succeeds and CARRY always has a base value. -/
theorem sRun_ok_of_ne_nil (w : Nat) (hw : 16 ≤ w) :
    ∀ (rs : List (Nat × SAct)) (hist : List (Nat × List Nat)),
      hist ≠ [] →
      List.Pairwise (· < ·) (hist.map Prod.fst ++ rs.map Prod.fst) →
      ∃ H, sRun w hist rs = .ok H := by
  intro rs
  induction rs with
  | nil => intro hist _ _; exact ⟨hist, rfl⟩
  | cons r rs ih =>
      intro hist hne hp
      obtain ⟨t, a⟩ := r
      have hsplit := List.pairwise_append.mp hp
      have hlt : ∀ p ∈ hist, p.1 < t := by
        intro p hmem
        exact hsplit.2.2 p.1 (List.mem_map.mpr ⟨p, hmem, rfl⟩) t (by simp)
      have hfresh : ∀ p ∈ hist, p.1 ≠ t := fun p hm => Nat.ne_of_lt (hlt p hm)
      have hnext : ∀ vv, List.Pairwise (· < ·)
          ((hist ++ [(t, vv)]).map Prod.fst ++ rs.map Prod.fst) := by
        intro vv
        simp only [List.map_append, List.map_cons, List.map_nil]
        rw [List.append_assoc]
        simpa using hp
      cases a with
      | write v =>
          have hstep := sStep_write_eval w hist t v hw
          rw [alInsert_append_of_fresh hist t _ hfresh] at hstep
          rcases ih (hist ++ [(t, v.take w)]) (by simp) (hnext _) with ⟨H, hH⟩
          refine ⟨H, ?_⟩
          unfold sRun
          rw [hstep]
          exact hH
      | carry =>
          have hpw : List.Pairwise (· < ·) (hist.map Prod.fst) :=
            hsplit.1
          rcases getLastTick_getLast hist t hne hpw hlt with ⟨hgt, hga⟩
          have hstep := sStep_carry_ok w hist t _ _ hw hgt hga
          rw [alInsert_append_of_fresh hist t _ hfresh] at hstep
          rcases ih (hist ++ [(t, (hist.getLast hne).2)]) (by simp)
            (hnext _) with ⟨H, hH⟩
          refine ⟨H, ?_⟩
          unfold sRun
          rw [hstep]
          exact hH

/-- The WRITE records at ticks `≤ t`, in stream order. -/
def writesUpTo (rs : List (Nat × SAct)) (t : Nat) : List (Nat × List Nat) :=
  rs.filterMap (fun r =>
    match r.2 with
    | .write v => if r.1 ≤ t then some (r.1, v) else Option.none
    | .carry => Option.none)

/-- Payload of the last WRITE at a tick `≤ t`. -/
def lastWriteUpTo (rs : List (Nat × SAct)) (t : Nat) : Option (List Nat) :=
  (writesUpTo rs t).getLast?.map (fun p => p.2)

theorem writesUpTo_cons_write_le (t0 t : Nat) (v : List Nat)
    (rs : List (Nat × SAct)) (h : t0 ≤ t) :
    writesUpTo ((t0, .write v) :: rs) t = (t0, v) :: writesUpTo rs t := by
  simp [writesUpTo, List.filterMap_cons, h]

theorem writesUpTo_cons_carry (t0 t : Nat) (rs : List (Nat × SAct)) :
    writesUpTo ((t0, .carry) :: rs) t = writesUpTo rs t := by
  simp [writesUpTo, List.filterMap_cons]

theorem writesUpTo_eq_nil_of_gt (t : Nat) :
    ∀ (rs : List (Nat × SAct)), (∀ r ∈ rs, t < r.1) → writesUpTo rs t = [] := by
  intro rs
  induction rs with
  | nil => intro _; rfl
  | cons r rs ih =>
      intro h
      obtain ⟨t0, a⟩ := r
      have ht0 : t < t0 := h (t0, a) (List.mem_cons_self _ _)
      cases a with
      | write v =>
          simp only [writesUpTo, List.filterMap_cons]
          rw [if_neg (by omega)]
          exact ih (fun q hq => h q (List.mem_cons_of_mem _ hq))
      | carry =>
          simp only [writesUpTo, List.filterMap_cons]
          exact ih (fun q hq => h q (List.mem_cons_of_mem _ hq))

/-- After a successful replay, each recorded tick's history value is the
payload of the last WRITE at or before it (falling back to the last value
already in the history when the stream holds no such WRITE). -/
theorem sRun_value (w : Nat) (hw : 16 ≤ w) :
    ∀ (rs : List (Nat × SAct)) (hist H : List (Nat × List Nat)),
      (∀ r ∈ rs, ∀ v, r.2 = SAct.write v → v.length = w) →
      List.Pairwise (· < ·) (hist.map Prod.fst ++ rs.map Prod.fst) →
      sRun w hist rs = .ok H →
      ∀ t, t ∈ rs.map Prod.fst →
        alGet H t = (lastWriteUpTo rs t).orElse
          (fun _ => hist.getLast?.map (fun p => p.2)) := by
  intro rs
  induction rs with
  | nil => intro hist H _ _ _ t ht; simp at ht
  | cons r rs ih =>
      intro hist H hwf hp hrun t ht
      obtain ⟨t0, a⟩ := r
      rcases sRun_cons_inv w hist H (t0, a) rs hrun with ⟨h1, hstep, hrun2⟩
      have hsplit := List.pairwise_append.mp hp
      have hlt : ∀ p ∈ hist, p.1 < t0 := by
        intro p hmem
        exact hsplit.2.2 p.1 (List.mem_map.mpr ⟨p, hmem, rfl⟩) t0 (by simp)
      have hfresh : ∀ p ∈ hist, p.1 ≠ t0 := fun p hm => Nat.ne_of_lt (hlt p hm)
      have hrsgt : ∀ q ∈ rs, t0 < q.1 := by
        intro q hq
        have h2 := hsplit.2.1
        rw [List.map_cons, List.pairwise_cons] at h2
        exact h2.1 q.1 (List.mem_map.mpr ⟨q, hq, rfl⟩)
      have hnext : ∀ vv, List.Pairwise (· < ·)
          ((hist ++ [(t0, vv)]).map Prod.fst ++ rs.map Prod.fst) := by
        intro vv
        simp only [List.map_append, List.map_cons, List.map_nil]
        rw [List.append_assoc]
        simpa using hp
      have hwf2 : ∀ r ∈ rs, ∀ v, r.2 = SAct.write v → v.length = w :=
        fun q hq => hwf q (List.mem_cons_of_mem _ hq)
      -- the value appended by this step
      have hmain : ∀ vv, h1 = hist ++ [(t0, vv)] →
          alGet H t0 = some vv := by
        intro vv hh1
        subst hh1
        rcases sRun_shape w hw rs (hist ++ [(t0, vv)]) H (hnext vv) hrun2
          with ⟨Δ, hH, _⟩
        rw [hH, List.append_assoc]
        rw [alGet_append_right hist _ t0 hfresh]
        exact alGet_cons_self t0 vv Δ
      have ht2 : t = t0 ∨ t ∈ rs.map Prod.fst := by
        rw [List.map_cons] at ht
        exact List.mem_cons.mp ht
      rcases ht2 with rfl | htmem
      · -- t is this record's tick
        have hwnil : writesUpTo rs t = [] :=
          writesUpTo_eq_nil_of_gt t rs hrsgt
        cases a with
        | write v =>
            have hv : v.length = w :=
              hwf (t, .write v) (List.mem_cons_self _ _) v rfl
            have hh1 : h1 = hist ++ [(t, v)] := by
              have := sStep_write_inv w hist h1 t v hw hstep
              rw [← hv, List.take_length] at this
              rw [this, alInsert_append_of_fresh hist t _ hfresh]
            rw [hmain v hh1]
            rw [lastWriteUpTo, writesUpTo_cons_write_le t t v rs (le_refl t),
              hwnil]
            rfl
        | carry =>
            rcases sStep_carry_inv w hist h1 t hw hstep with
              ⟨pt, v0, hpt, hget, hh1⟩
            rw [alInsert_append_of_fresh hist t _ hfresh] at hh1
            have hne : hist ≠ [] := by
              intro he
              rw [he, getLastTick_nil] at hpt
              exact absurd hpt (by simp)
            rcases getLastTick_getLast hist t hne hsplit.1 hlt with ⟨hgt2, hga2⟩
            rw [hpt] at hgt2
            have hpt2 : pt = (hist.getLast hne).1 := Option.some.inj hgt2
            rw [hpt2, hga2] at hget
            have hv0 : v0 = (hist.getLast hne).2 := (Option.some.inj hget).symm
            rw [hmain v0 hh1]
            rw [lastWriteUpTo, writesUpTo_cons_carry t t rs, hwnil]
            rw [List.getLast?_eq_getLast_of_ne_nil hne]
            simp [hv0]
      · -- t is a later record's tick
        have ht0t : t0 < t := by
          rcases List.mem_map.mp htmem with ⟨q, hq, he⟩
          exact he ▸ hrsgt q hq
        cases a with
        | write v =>
            have hv : v.length = w :=
              hwf (t0, .write v) (List.mem_cons_self _ _) v rfl
            have hh1 : h1 = hist ++ [(t0, v)] := by
              have := sStep_write_inv w hist h1 t0 v hw hstep
              rw [← hv, List.take_length] at this
              rw [this, alInsert_append_of_fresh hist t0 _ hfresh]
            have hih := ih (hist ++ [(t0, v)]) H hwf2 (hnext v)
              (hh1 ▸ hrun2) t htmem
            rw [List.getLast?_concat] at hih
            rw [lastWriteUpTo,
              writesUpTo_cons_write_le t0 t v rs (Nat.le_of_lt ht0t)]
            cases hc : writesUpTo rs t with
            | nil =>
                rw [hih, lastWriteUpTo, hc]
                simp
            | cons x xs =>
                rw [hih, lastWriteUpTo, hc]
                rw [List.getLast?_cons_cons]
                have hqq := List.getLast?_eq_getLast_of_ne_nil
                  (List.cons_ne_nil x xs)
                rw [hqq]
                simp
        | carry =>
            rcases sStep_carry_inv w hist h1 t0 hw hstep with
              ⟨pt, v0, hpt, hget, hh1⟩
            rw [alInsert_append_of_fresh hist t0 _ hfresh] at hh1
            have hne : hist ≠ [] := by
              intro he
              rw [he, getLastTick_nil] at hpt
              exact absurd hpt (by simp)
            rcases getLastTick_getLast hist t0 hne hsplit.1 hlt with ⟨hgt2, hga2⟩
            rw [hpt] at hgt2
            have hpt2 : pt = (hist.getLast hne).1 := Option.some.inj hgt2
            rw [hpt2, hga2] at hget
            have hv0 : v0 = (hist.getLast hne).2 := (Option.some.inj hget).symm
            have hih := ih (hist ++ [(t0, v0)]) H hwf2 (hnext v0)
              (hh1 ▸ hrun2) t htmem
            rw [List.getLast?_concat] at hih
            rw [lastWriteUpTo, writesUpTo_cons_carry t0 t rs]
            cases hc : writesUpTo rs t with
            | nil =>
                rw [hih, lastWriteUpTo, hc]
                rw [List.getLast?_eq_getLast_of_ne_nil hne]
                simp [hv0]
            | cons x xs =>
                rw [hih, lastWriteUpTo, hc]
                rw [List.getLast?_eq_getLast_of_ne_nil (List.cons_ne_nil x xs)]
                simp

/-- Decomposition of the sortedness hypothesis around one record. -/
theorem pairwise_split_record (rs1 rs2 : List (Nat × SAct)) (t : Nat) (a : SAct)
    (hp : List.Pairwise (· < ·) ((rs1 ++ (t, a) :: rs2).map Prod.fst)) :
    List.Pairwise (· < ·) (rs1.map Prod.fst) ∧
      (∀ p ∈ rs1, p.1 < t) ∧ (∀ q ∈ rs2, t < q.1) ∧
      List.Pairwise (· < ·)
        ((rs1.map Prod.fst ++ [t]) ++ rs2.map Prod.fst) := by
  rw [List.map_append] at hp
  have hsp := List.pairwise_append.mp hp
  refine ⟨hsp.1, ?_, ?_, ?_⟩
  · intro p hmem
    exact hsp.2.2 p.1 (List.mem_map.mpr ⟨p, hmem, rfl⟩) t (by simp)
  · intro q hmem
    have h2 := hsp.2.1
    rw [List.map_cons, List.pairwise_cons] at h2
    exact h2.1 q.1 (List.mem_map.mpr ⟨q, hmem, rfl⟩)
  · rw [List.append_assoc]
    simpa using hp

/-- Carry-forward invariant at the level of a whole successful replay: a
CARRY record at `t` ends up holding exactly the value stored at the
nearest earlier recorded tick, as found by `__GetLastTick` on the final
history. -/
theorem sRun_carry_forward (w : Nat) (hw : 16 ≤ w)
    (rs : List (Nat × SAct)) (H : List (Nat × List Nat))
    (hp : List.Pairwise (· < ·) (rs.map Prod.fst))
    (hrun : sRun w [] rs = .ok H)
    (t : Nat) (hc : (t, SAct.carry) ∈ rs) :
    ∃ pt, getLastTick H t = some pt ∧ pt < t ∧
      alGet H t = alGet H pt ∧ (alGet H t).isSome := by
  rcases List.append_of_mem hc with ⟨rs1, rs2, rfl⟩
  rcases sRun_append w rs1 ((t, .carry) :: rs2) [] H hrun with ⟨H1, hrun1, hrunc⟩
  rcases sRun_cons_inv w H1 H (t, .carry) rs2 hrunc with ⟨h2, hstep, hrun2⟩
  rcases pairwise_split_record rs1 rs2 t .carry hp with ⟨hp1, hlt1, hgt2, hp4⟩
  rcases sRun_shape w hw rs1 [] H1 (by simpa using hp1) hrun1 with ⟨Δ1, hH1, hk1⟩
  rw [List.nil_append] at hH1
  subst hH1
  have hlt1k : ∀ p ∈ H1, p.1 < t := by
    intro p hmem
    have : p.1 ∈ rs1.map Prod.fst := by
      rw [← hk1]; exact List.mem_map.mpr ⟨p, hmem, rfl⟩
    rcases List.mem_map.mp this with ⟨q, hq, he⟩
    exact he ▸ hlt1 q hq
  rcases sStep_carry_inv w H1 h2 t hw hstep with ⟨pt, v0, hpt, hgetv, hh2⟩
  have hfresh : ∀ p ∈ H1, p.1 ≠ t := fun p hm => Nat.ne_of_lt (hlt1k p hm)
  rw [alInsert_append_of_fresh H1 t v0 hfresh] at hh2
  subst hh2
  have hp5 : List.Pairwise (· < ·)
      ((H1 ++ [(t, v0)]).map Prod.fst ++ rs2.map Prod.fst) := by
    simp only [List.map_append, List.map_cons, List.map_nil]
    rw [hk1]
    exact hp4
  rcases sRun_shape w hw rs2 (H1 ++ [(t, v0)]) H hp5 hrun2 with ⟨Δ2, hH, hk2⟩
  subst hH
  have hgt2k : ∀ p ∈ Δ2, t < p.1 := by
    intro p hmem
    have : p.1 ∈ rs2.map Prod.fst := by
      rw [← hk2]; exact List.mem_map.mpr ⟨p, hmem, rfl⟩
    rcases List.mem_map.mp this with ⟨q, hq, he⟩
    exact he ▸ hgt2 q hq
  have hptlt : pt < t := getLastTick_lt H1 t pt hpt
  have hglt : getLastTick ((H1 ++ [(t, v0)]) ++ Δ2) t = some pt := by
    rw [← hpt]
    apply getLastTick_congr
    intro q hq
    by_cases hmem : q ∈ H1.map Prod.fst
    · rw [any_key_eq_true _ q hmem]
      apply any_key_eq_true
      simp only [List.map_append, List.mem_append]
      left; left; exact hmem
    · rw [any_key_eq_false _ q hmem]
      apply any_key_eq_false
      simp only [List.map_append, List.mem_append, List.map_cons, List.map_nil]
      rintro ((h | h) | h)
      · exact hmem h
      · simp at h; omega
      · rcases List.mem_map.mp h with ⟨p, hpm, he⟩
        have := hgt2k p hpm
        omega
  have hgetT : alGet ((H1 ++ [(t, v0)]) ++ Δ2) t = some v0 := by
    rw [List.append_assoc]
    rw [alGet_append_right H1 _ t hfresh]
    exact alGet_cons_self t v0 Δ2
  have hgetPt : alGet ((H1 ++ [(t, v0)]) ++ Δ2) pt = some v0 := by
    rw [List.append_assoc]
    exact alGet_append_left H1 _ pt v0 hgetv
  exact ⟨pt, hglt, hptlt, by rw [hgetT, hgetPt], by rw [hgetT]; rfl⟩

/-- A WRITE record's tick ends up holding exactly the written payload. -/
theorem sRun_write_val (w : Nat) (hw : 16 ≤ w)
    (rs : List (Nat × SAct)) (H : List (Nat × List Nat))
    (hwf : ∀ r ∈ rs, ∀ v, r.2 = SAct.write v → v.length = w)
    (hp : List.Pairwise (· < ·) (rs.map Prod.fst))
    (hrun : sRun w [] rs = .ok H)
    (t : Nat) (v : List Nat) (hmem : (t, SAct.write v) ∈ rs) :
    alGet H t = some v := by
  rcases List.append_of_mem hmem with ⟨rs1, rs2, rfl⟩
  rcases sRun_append w rs1 ((t, .write v) :: rs2) [] H hrun with
    ⟨H1, hrun1, hrunc⟩
  rcases sRun_cons_inv w H1 H (t, .write v) rs2 hrunc with ⟨h2, hstep, hrun2⟩
  rcases pairwise_split_record rs1 rs2 t (.write v) hp with ⟨hp1, hlt1, _, hp4⟩
  rcases sRun_shape w hw rs1 [] H1 (by simpa using hp1) hrun1 with ⟨Δ1, hH1, hk1⟩
  rw [List.nil_append] at hH1
  subst hH1
  have hlt1k : ∀ p ∈ H1, p.1 < t := by
    intro p hmem2
    have : p.1 ∈ rs1.map Prod.fst := by
      rw [← hk1]; exact List.mem_map.mpr ⟨p, hmem2, rfl⟩
    rcases List.mem_map.mp this with ⟨q, hq, he⟩
    exact he ▸ hlt1 q hq
  have hfresh : ∀ p ∈ H1, p.1 ≠ t := fun p hm => Nat.ne_of_lt (hlt1k p hm)
  have hv : v.length = w := hwf (t, .write v)
    (List.mem_append.mpr (Or.inr (List.mem_cons_self _ _))) v rfl
  have hh2 : h2 = H1 ++ [(t, v)] := by
    have := sStep_write_inv w H1 h2 t v hw hstep
    rw [← hv, List.take_length] at this
    rw [this, alInsert_append_of_fresh H1 t _ hfresh]
  subst hh2
  have hp5 : List.Pairwise (· < ·)
      ((H1 ++ [(t, v)]).map Prod.fst ++ rs2.map Prod.fst) := by
    simp only [List.map_append, List.map_cons, List.map_nil]
    rw [hk1]
    exact hp4
  rcases sRun_shape w hw rs2 (H1 ++ [(t, v)]) H hp5 hrun2 with ⟨Δ2, hH, _⟩
  subst hH
  rw [List.append_assoc]
  rw [alGet_append_right H1 _ t hfresh]
  exact alGet_cons_self t v Δ2

/-! ## Scan-start computation vs. the spec's wording -/

theorem findStartIdx_eq_find? :
    ∀ (timeVals : List Nat) (lo : Nat),
      findStartIdx timeVals lo =
        (List.range timeVals.length).find?
          (fun j => decide (lo ≤ timeVals.getD j 0)) := by
  intro timeVals
  induction timeVals with
  | nil => intro lo; rfl
  | cons tv rest ih =>
      intro lo
      rw [List.length_cons, List.range_succ_eq_map, List.find?_cons]
      by_cases h : lo ≤ tv
      · simp only [findStartIdx, if_pos h, List.getD_cons_zero,
          decide_eq_true h]
      · simp only [findStartIdx, if_neg h, List.getD_cons_zero,
          decide_eq_false h]
        rw [List.find?_map]
        rw [ih lo]
        apply congrArg
        apply find?_congr
        intro j _
        simp [Function.comp]

theorem toNat_max_sub (i hb : Nat) :
    (max 0 ((i : Int) - hb)).toNat = i - hb := by omega

/-- The scan-start tick computed by `Unpack` coincides with the spec's
description (first index with tick ≥ bound, stepped back `heartbeat`
positions and clamped at index 0). -/
theorem findStartTime_eq_spec (timeVals : List Nat) (hb lo : Nat) :
    findStartTime timeVals hb lo = specScanStart timeVals hb lo := by
  unfold findStartTime specScanStart
  rw [← findStartIdx_eq_find?]
  cases h : findStartIdx timeVals lo with
  | none => rfl
  | some i =>
      dsimp only
      rw [toNat_max_sub]
      rfl

theorem getLast?_append_right {α : Type} (l m : List α) (h : m ≠ []) :
    (l ++ m).getLast? = m.getLast? := by
  rw [List.getLast?_append]
  cases hm : m.getLast? with
  | none => exact absurd (List.getLast?_eq_none_iff.mp hm) h
  | some q => rfl

theorem orElse_none_right {α : Type} (x : Option α) :
    (Option.orElse x (fun _ => Option.none)) = x := by
  cases x <;> rfl

theorem orElse_map_none {α β : Type} (x : Option α) (f : β → α) :
    (Option.orElse x (fun _ => Option.map f Option.none)) = x := by
  cases x <;> rfl

theorem alGet_eq_none_of_not_mem_keys {κ α : Type} [DecidableEq κ]
    (l : List (κ × α)) (k : κ) (h : k ∉ l.map Prod.fst) :
    alGet l k = Option.none := by
  apply alGet_eq_none_of_forall
  intro p hp he
  exact h (List.mem_map.mpr ⟨p, hp, he⟩)

/-- Look-back replay equivalence: if the retained suffix of the record
stream opens with a WRITE, replaying only the suffix succeeds and agrees
with the full replay on the history entry at any tick `b ≥ s`. -/
theorem sRun_lookback (w : Nat) (hw : 16 ≤ w)
    (rs1 rs2 : List (Nat × SAct)) (H : List (Nat × List Nat))
    (hwf : ∀ r ∈ rs1 ++ rs2, ∀ v, r.2 = SAct.write v → v.length = w)
    (hp : List.Pairwise (· < ·) ((rs1 ++ rs2).map Prod.fst))
    (hrun : sRun w [] (rs1 ++ rs2) = .ok H)
    (s : Nat) (h1lt : ∀ r ∈ rs1, r.1 < s) (_h2ge : ∀ r ∈ rs2, s ≤ r.1)
    (hhead : ∀ r, rs2.head? = some r → ∃ v, r.2 = SAct.write v)
    (b : Nat) (hsb : s ≤ b) :
    ∃ H2, sRun w [] rs2 = .ok H2 ∧ alGet H2 b = alGet H b := by
  have hpall : List.Pairwise (· < ·)
      (([] : List (Nat × List Nat)).map Prod.fst ++ (rs1 ++ rs2).map Prod.fst) := by
    simpa using hp
  have hp2 : List.Pairwise (· < ·) (rs2.map Prod.fst) := by
    rw [List.map_append] at hp
    exact (List.pairwise_append.mp hp).2.1
  have hHkeys : H.map Prod.fst = (rs1 ++ rs2).map Prod.fst := by
    rcases sRun_shape w hw (rs1 ++ rs2) [] H hpall hrun with ⟨Δ, hH, hk⟩
    rw [List.nil_append] at hH
    rw [hH]
    exact hk
  -- the suffix run succeeds
  have hsuffix : ∃ H2, sRun w [] rs2 = .ok H2 := by
    cases hrs2 : rs2 with
    | nil => exact ⟨[], rfl⟩
    | cons r0 rs2' =>
        obtain ⟨t0, a0⟩ := r0
        rcases hhead (t0, a0) (by rw [hrs2]; rfl) with ⟨v0, ha0⟩
        subst ha0
        have hv0 : v0.length = w := by
          apply hwf (t0, .write v0) _ v0 rfl
          rw [hrs2]
          exact List.mem_append.mpr (Or.inr (List.mem_cons_self _ _))
        have hstep := sStep_write w [] t0 v0 hw hv0
        have hins : alInsert ([] : List (Nat × List Nat)) t0 v0 = [(t0, v0)] := rfl
        rw [hins] at hstep
        have hp2' : List.Pairwise (· < ·)
            (([(t0, v0)]).map Prod.fst ++ rs2'.map Prod.fst) := by
          rw [hrs2] at hp2
          simpa using hp2
        rcases sRun_ok_of_ne_nil w hw rs2' [(t0, v0)] (by simp) hp2'
          with ⟨H2, hH2⟩
        refine ⟨H2, ?_⟩
        unfold sRun
        rw [hstep]
        exact hH2
  rcases hsuffix with ⟨H2, hrun2⟩
  refine ⟨H2, hrun2, ?_⟩
  have hH2keys : H2.map Prod.fst = rs2.map Prod.fst := by
    rcases sRun_shape w hw rs2 [] H2 (by simpa using hp2) hrun2 with ⟨Δ, hH2, hk⟩
    rw [List.nil_append] at hH2
    rw [hH2]
    exact hk
  by_cases hbmem : b ∈ (rs1 ++ rs2).map Prod.fst
  · -- b carries a record; it must lie in the suffix
    rcases List.mem_map.mp hbmem with ⟨q, hq, hqb⟩
    obtain ⟨bt, act⟩ := q
    simp only at hqb
    subst hqb
    have hqrs2 : (bt, act) ∈ rs2 := by
      rcases List.mem_append.mp hq with h | h
      · have := h1lt (bt, act) h
        omega
      · exact h
    cases act with
    | write v =>
        have hfull := sRun_write_val w hw (rs1 ++ rs2) H hwf hp hrun bt v hq
        have hwf2 : ∀ r ∈ rs2, ∀ v, r.2 = SAct.write v → v.length = w :=
          fun r hr => hwf r (List.mem_append.mpr (Or.inr hr))
        have hsuf := sRun_write_val w hw rs2 H2 hwf2 hp2 hrun2 bt v hqrs2
        rw [hfull, hsuf]
    | carry =>
        have hbkeys2 : bt ∈ rs2.map Prod.fst :=
          List.mem_map.mpr ⟨(bt, .carry), hqrs2, rfl⟩
        have hfull := sRun_value w hw (rs1 ++ rs2) [] H hwf hpall hrun bt hbmem
        have hwf2 : ∀ r ∈ rs2, ∀ v, r.2 = SAct.write v → v.length = w :=
          fun r hr => hwf r (List.mem_append.mpr (Or.inr hr))
        have hsuf := sRun_value w hw rs2 [] H2 hwf2 (by simpa using hp2)
          hrun2 bt hbkeys2
        simp only [List.getLast?_nil] at hfull hsuf
        rw [orElse_map_none] at hfull hsuf
        rw [hfull, hsuf]
        -- the last write at or before bt is the same in both streams
        unfold lastWriteUpTo
        have happ : writesUpTo (rs1 ++ rs2) bt =
            writesUpTo rs1 bt ++ writesUpTo rs2 bt := by
          unfold writesUpTo
          exact List.filterMap_append rs1 rs2 _
        rw [happ]
        have hne2 : writesUpTo rs2 bt ≠ [] := by
          cases hrs2 : rs2 with
          | nil => rw [hrs2] at hqrs2; simp at hqrs2
          | cons r0 rs2' =>
              obtain ⟨t0, a0⟩ := r0
              rcases hhead (t0, a0) (by rw [hrs2]; rfl) with ⟨v0, ha0⟩
              subst ha0
              have ht0b : t0 ≤ bt := by
                rw [hrs2] at hqrs2
                rcases List.mem_cons.mp hqrs2 with he | hmem'
                · cases he
                · rw [hrs2] at hp2
                  rw [List.map_cons, List.pairwise_cons] at hp2
                  have := hp2.1 bt
                    (List.mem_map.mpr ⟨(bt, .carry), hmem', rfl⟩)
                  omega
              rw [writesUpTo_cons_write_le t0 bt v0 rs2' ht0b]
              exact List.cons_ne_nil _ _
        rw [getLast?_append_right _ _ hne2]
  · -- no record at b in either stream
    have hnot2 : b ∉ rs2.map Prod.fst := by
      intro hmem
      apply hbmem
      rw [List.map_append]
      exact List.mem_append.mpr (Or.inr hmem)
    have e1 : alGet H b = Option.none :=
      alGet_eq_none_of_not_mem_keys H b (by rw [hHkeys]; exact hbmem)
    have e2 : alGet H2 b = Option.none :=
      alGet_eq_none_of_not_mem_keys H2 b (by rw [hH2keys]; exact hnot2)
    rw [e1, e2]

/-! ## Encoded record images and the byte-count tables -/

/-- A well-formed record body for one element, per the action grammar of
the replayers. -/
inductive Act where
  | direct (payload : List Nat)
  | swrite (payload : List Nat)
  | scarry
  | qfull (elems : List (List Nat))
  | qarrive (payload : List Nat)
  | qdepart
  | qbookends (payload : List Nat)
  | qchange (idx : Nat) (payload : List Nat)
  | qcarry
  | sdump (entries : List (Nat × List Nat))
  deriving DecidableEq, Repr

/-- Byte image of a record body. -/
def encodeAct : Act → List Nat
  | .direct p => p
  | .swrite p => 0 :: p
  | .scarry => [1]
  | .qfull es => 5 :: (leBytes 2 es.length ++ es.flatten)
  | .qarrive p => 0 :: p
  | .qdepart => [1]
  | .qbookends p => 2 :: p
  | .qchange i p => 3 :: (leBytes 2 i ++ p)
  | .qcarry => [4]
  | .sdump entries =>
      leBytes 2 entries.length ++
        (entries.map (fun e => leBytes 2 e.1)).flatten ++
        (entries.map (fun e => e.2)).flatten

/-- The byte counts of the action tables (element width `W`). -/
def actSize (W : Nat) : Act → Nat
  | .direct _ => W
  | .swrite _ => 1 + W
  | .scarry => 1
  | .qfull es => 3 + es.length * W
  | .qarrive _ => 1 + W
  | .qdepart => 1
  | .qbookends _ => 1 + W
  | .qchange _ _ => 3 + W
  | .qcarry => 1
  | .sdump entries => 2 + entries.length * 2 + entries.length * W

theorem leBytes_length : ∀ (w v : Nat), (leBytes w v).length = w := by
  intro w
  induction w with
  | zero => intro v; rfl
  | succ n ih => intro v; simp [leBytes, ih]

theorem leDec_leBytes : ∀ (w v : Nat), leDec (leBytes w v) = v % 256 ^ w := by
  intro w
  induction w with
  | zero => intro v; simp [leBytes, leDec, Nat.mod_one]
  | succ n ih =>
      intro v
      simp only [leBytes, leDec, List.foldr_cons]
      have : List.foldr (fun b acc => b + 256 * acc) 0 (leBytes n (v / 256)) =
          leDec (leBytes n (v / 256)) := rfl
      rw [this, ih]
      rw [pow_succ']
      rw [Nat.mod_mul]

theorem leDec_leBytes_of_lt (w v : Nat) (h : v < 256 ^ w) :
    leDec (leBytes w v) = v := by
  rw [leDec_leBytes, Nat.mod_eq_of_lt h]

theorem take_prefix_of_length {α : Type} (a b : List α) (w : Nat)
    (h : a.length = w) : (a ++ b).take w = a := by
  rw [← h]
  exact List.take_left a b

theorem drop_prefix_of_length {α : Type} (a b : List α) (w : Nat)
    (h : a.length = w) : (a ++ b).drop w = b := by
  rw [← h]
  exact List.drop_left a b

/-- Extracting the `i`-th fixed-width chunk from a flattened block (with
anything appended after it). -/
theorem flatten_chunk {W : Nat} :
    ∀ (es : List (List Nat)) (rest : List Nat) (i : Nat),
      i < es.length → (∀ e ∈ es, e.length = W) →
      ((es.flatten ++ rest).drop (i * W)).take W = es.getD i [] := by
  intro es
  induction es with
  | nil => intro rest i hi; simp at hi
  | cons e es ih =>
      intro rest i hi hlen
      cases i with
      | zero =>
          simp only [Nat.zero_mul, List.drop_zero, List.flatten_cons,
            List.getD_cons_zero, List.append_assoc]
          exact take_prefix_of_length e _ W (hlen e (List.mem_cons_self e es))
      | succ i =>
          have heW : e.length = W := hlen e (List.mem_cons_self e es)
          simp only [List.flatten_cons, List.getD_cons_succ, List.append_assoc]
          rw [Nat.succ_mul, Nat.add_comm (i * W) W, ← List.drop_drop]
          rw [drop_prefix_of_length e _ W heW]
          exact ih rest i (Nat.lt_of_succ_lt_succ hi)
            (fun x hx => hlen x (List.mem_cons_of_mem e hx))

theorem map_getD_range {α : Type} (d : α) :
    ∀ (es : List α), (List.range es.length).map (fun i => es.getD i d) = es := by
  intro es
  induction es with
  | nil => rfl
  | cons e es ih =>
      rw [List.length_cons, List.range_succ_eq_map, List.map_cons,
        List.map_map]
      simp only [List.getD_cons_zero]
      apply congrArg
      calc (List.range es.length).map ((fun i => (e :: es).getD i d) ∘ (· + 1))
          = (List.range es.length).map (fun i => es.getD i d) := by
            apply List.map_congr_left
            intro i _
            simp [Function.comp]
        _ = es := ih

theorem getD_map {α β : Type} (f : α → β) :
    ∀ (es : List α) (i : Nat) (d : α),
      (es.map f).getD i (f d) = f (es.getD i d) := by
  intro es
  induction es with
  | nil => intro i d; simp
  | cons e es ih =>
      intro i d
      cases i with
      | zero => simp
      | succ i => simp only [List.map_cons, List.getD_cons_succ]; exact ih i d

theorem flatten_length_const {α : Type} (c : Nat) :
    ∀ (l : List (List α)), (∀ e ∈ l, e.length = c) →
      l.flatten.length = l.length * c := by
  intro l
  induction l with
  | nil => intro _; simp
  | cons e l ih =>
      intro h
      simp only [List.flatten_cons, List.length_append, List.length_cons]
      rw [h e (List.mem_cons_self e l), ih (fun x hx => h x (List.mem_cons_of_mem e hx))]
      ring

theorem cqReplay_tag5 (W : Nat) (st : ContigSt) (t : Nat) (r1 : List Nat)
    (h2 : 2 ≤ r1.length) :
    cqReplay W st t (5 :: r1) true =
      .ok (⟨some ((List.range (leDec (r1.take 2))).map
              (fun i => (((5 :: r1).drop (3 + i * W)).take W))),
            alInsert st.hist t ((List.range (leDec (r1.take 2))).map
              (fun i => (((5 :: r1).drop (3 + i * W)).take W)))⟩,
          3 + (leDec (r1.take 2)) * W) := by
  unfold cqReplay
  rw [if_neg (by simp)]
  dsimp only
  simp only [reduceIte]
  rw [if_neg (by omega)]

/-- FULL on a well-formed record image replaces the list wholesale and
consumes `3 + count·W` bytes. -/
theorem cqReplay_full (W : Nat) (st : ContigSt) (t : Nat)
    (es : List (List Nat)) (rest : List Nat)
    (hcnt : es.length < 65536) (hlen : ∀ e ∈ es, e.length = W) :
    cqReplay W st t (encodeAct (.qfull es) ++ rest) true =
      .ok (⟨some es, alInsert st.hist t es⟩, 3 + es.length * W) := by
  have hr1len : 2 ≤ ((leBytes 2 es.length ++ es.flatten) ++ rest).length := by
    simp only [List.length_append, leBytes_length]
    omega
  have e1 : encodeAct (.qfull es) ++ rest =
      5 :: ((leBytes 2 es.length ++ es.flatten) ++ rest) := by
    simp [encodeAct]
  rw [e1, cqReplay_tag5 W st t _ hr1len]
  have hsz : leDec (((leBytes 2 es.length ++ es.flatten) ++ rest).take 2) =
      es.length := by
    rw [List.append_assoc]
    rw [take_prefix_of_length _ _ 2 (leBytes_length 2 _)]
    apply leDec_leBytes_of_lt
    have : (256 : Nat) ^ 2 = 65536 := by norm_num
    omega
  rw [hsz]
  have hvals : (List.range es.length).map
      (fun i => (((5 :: ((leBytes 2 es.length ++ es.flatten) ++ rest)).drop
        (3 + i * W)).take W)) = es := by
    have hpt : ∀ i ∈ List.range es.length,
        (((5 :: ((leBytes 2 es.length ++ es.flatten) ++ rest)).drop
          (3 + i * W)).take W) = es.getD i [] := by
      intro i hi
      have hi2 := List.mem_range.mp hi
      have hpre : (5 :: ((leBytes 2 es.length ++ es.flatten) ++ rest)) =
          (5 :: leBytes 2 es.length) ++ (es.flatten ++ rest) := by simp
      rw [hpre]
      have h3 : (5 :: leBytes 2 es.length).length = 3 := by
        simp [leBytes_length]
      rw [show (3 : Nat) + i * W =
        (5 :: leBytes 2 es.length).length + i * W from by rw [h3]]
      rw [List.drop_append]
      exact flatten_chunk es rest i hi2 hlen
    rw [List.map_congr_left hpt]
    exact map_getD_range [] es
  rw [hvals]

/-- ARRIVE appends to the back (and is silently skipped before any FULL),
consuming `1 + W` bytes either way. -/
theorem cqReplay_arrive (W : Nat) (st : ContigSt) (t : Nat)
    (p rest : List Nat) (hplen : p.length = W) :
    cqReplay W st t (encodeAct (.qarrive p) ++ rest) true =
      (match st.values with
       | some vs => .ok (⟨some (vs ++ [p]),
           alInsert st.hist t (vs ++ [p])⟩, 1 + W)
       | Option.none => .ok (st, 1 + W)) := by
  have e1 : encodeAct (.qarrive p) ++ rest = 0 :: (p ++ rest) := by
    simp [encodeAct]
  rw [e1]
  unfold cqReplay
  rw [if_neg (by simp)]
  dsimp only
  norm_num
  rw [take_prefix_of_length p rest W hplen]

/-- DEPART pops the front, raising IndexError on an empty list and being
silently skipped before any FULL; it consumes 1 byte. -/
theorem cqReplay_depart (W : Nat) (st : ContigSt) (t : Nat) (rest : List Nat) :
    cqReplay W st t (encodeAct .qdepart ++ rest) true =
      (match st.values with
       | some [] => .error .indexError
       | some (_ :: vs) => .ok (⟨some vs, alInsert st.hist t vs⟩, 1)
       | Option.none => .ok (st, 1)) := by
  have e1 : encodeAct .qdepart ++ rest = 1 :: rest := by simp [encodeAct]
  rw [e1]
  unfold cqReplay
  rw [if_neg (by simp)]
  dsimp only
  norm_num

/-- BOOKENDS appends to the back and pops the front, consuming `1 + W`. -/
theorem cqReplay_bookends (W : Nat) (st : ContigSt) (t : Nat)
    (p rest : List Nat) (hplen : p.length = W) :
    cqReplay W st t (encodeAct (.qbookends p) ++ rest) true =
      (match st.values with
       | some vs => .ok (⟨some ((vs ++ [p]).tail),
           alInsert st.hist t ((vs ++ [p]).tail)⟩, 1 + W)
       | Option.none => .ok (st, 1 + W)) := by
  have e1 : encodeAct (.qbookends p) ++ rest = 2 :: (p ++ rest) := by
    simp [encodeAct]
  rw [e1]
  unfold cqReplay
  rw [if_neg (by simp)]
  dsimp only
  norm_num
  rw [take_prefix_of_length p rest W hplen]
  cases hv : st.values with
  | none => rfl
  | some vs =>
      dsimp only
      cases hvp : vs ++ [p] with
      | nil => exact absurd hvp (by simp)
      | cons x vs2 => rfl

/-- CHANGE overwrites the element at the given index in place, consuming
`3 + W`; an out-of-range index is an IndexError. -/
theorem cqReplay_change (W : Nat) (st : ContigSt) (t : Nat)
    (i : Nat) (p rest : List Nat) (hi : i < 65536) (hplen : p.length = W) :
    cqReplay W st t (encodeAct (.qchange i p) ++ rest) true =
      (match st.values with
       | some vs =>
           if i < vs.length then
             .ok (⟨some (vs.set i p), alInsert st.hist t (vs.set i p)⟩, 3 + W)
           else .error .indexError
       | Option.none => .ok (st, 3 + W)) := by
  have e1 : encodeAct (.qchange i p) ++ rest =
      3 :: ((leBytes 2 i ++ p) ++ rest) := by
    simp [encodeAct]
  rw [e1]
  unfold cqReplay
  rw [if_neg (by simp)]
  dsimp only
  norm_num
  rw [if_neg (show ¬((leBytes 2 i).length + (p.length + rest.length) < 2) from by
    simp only [leBytes_length]; omega)]
  have hsz : leDec ((leBytes 2 i ++ (p ++ rest)).take 2) = i := by
    rw [take_prefix_of_length _ _ 2 (leBytes_length 2 _)]
    apply leDec_leBytes_of_lt
    have h2 : (256 : Nat) ^ 2 = 65536 := by norm_num
    omega
  rw [hsz]
  have hblob : (leBytes 2 i ++ (p ++ rest)).drop 2 = p ++ rest :=
    drop_prefix_of_length _ _ 2 (leBytes_length 2 i)
  rw [hblob, take_prefix_of_length p rest W hplen]

/-- CARRY copies the previous tick's list, consuming 1 byte; before any
FULL it is silently skipped. -/
theorem cqReplay_carryAct (W : Nat) (st : ContigSt) (t : Nat) (rest : List Nat) :
    cqReplay W st t (encodeAct .qcarry ++ rest) true =
      (match st.values with
       | some _ =>
           (match getLastTick st.hist t with
            | some pt =>
                (match alGet st.hist pt with
                 | some vs => .ok (⟨st.values, alInsert st.hist t vs⟩, 1)
                 | Option.none => .error .keyError)
            | Option.none => .error .keyError)
       | Option.none => .ok (st, 1)) := by
  have e1 : encodeAct .qcarry ++ rest = 4 :: rest := by simp [encodeAct]
  rw [e1]
  unfold cqReplay
  rw [if_neg (by simp)]
  dsimp only
  norm_num

/-- A direct (untagged) POD write decodes exactly `width` bytes. -/
theorem podReplay_direct (w : Nat) (hist : List (Nat × Nat)) (t : Nat)
    (p rest : List Nat) (auto : Bool)
    (hcond : w < 16 ∨ auto = false) (hplen : p.length = w) :
    podReplay w hist t (p ++ rest) auto =
      .ok (alInsert hist t (leDec p), w) := by
  unfold podReplay
  rw [if_pos hcond]
  rw [if_neg (by simp only [List.length_append]; omega)]
  rw [take_prefix_of_length p rest w hplen]

/-- A direct (untagged) scalar-struct write stores exactly `width` raw
bytes. -/
theorem ssReplay_direct (w : Nat) (hist : List (Nat × List Nat)) (t : Nat)
    (p rest : List Nat) (auto : Bool)
    (hcond : w < 16 ∨ auto = false) (hplen : p.length = w) :
    ssReplay w hist t (p ++ rest) auto =
      .ok (alInsert hist t p, w) := by
  unfold ssReplay
  rw [if_pos hcond]
  rw [take_prefix_of_length p rest w hplen]

theorem ssReplay_carry16_pad (w : Nat) (hist : List (Nat × List Nat))
    (t : Nat) (rest : List Nat) (hw : 16 ≤ w) :
    ssReplay w hist t (1 :: rest) true =
      (match getLastTick hist t with
       | some pt =>
           match alGet hist pt with
           | some v => Except.ok (alInsert hist t v, 1)
           | Option.none => Except.error RErr.keyError
       | Option.none => Except.error RErr.keyError) := by
  unfold ssReplay
  rw [if_neg (by simp; omega)]
  rfl

/-- A sparse columnar dump decodes its `valid_count` bucket/payload pairs
and consumes `2 + k·2 + k·W` bytes. -/
theorem spReplay_dump (W cap : Nat) (st : SparseSt) (t : Nat)
    (entries : List (Nat × List Nat)) (rest : List Nat)
    (hk : entries.length < 65536)
    (hbins : ∀ e ∈ entries, e.1 < 65536)
    (hws : ∀ e ∈ entries, e.2.length = W) :
    spReplay W cap st t (encodeAct (.sdump entries) ++ rest) true =
      (match entries.foldlM (spWrite cap) st.values with
       | .error e => .error e
       | .ok vals => .ok (⟨vals, alInsert st.hist t vals⟩,
           2 + entries.length * 2 + entries.length * W)) := by
  have hbl : ∀ e ∈ entries.map (fun e => leBytes 2 e.1), e.length = 2 := by
    intro e he
    rcases List.mem_map.mp he with ⟨q, _, rfl⟩
    exact leBytes_length 2 q.1
  have hbinsLen : ((entries.map (fun e => leBytes 2 e.1)).flatten).length =
      entries.length * 2 := by
    rw [flatten_length_const 2 _ hbl]
    simp
  have e1 : encodeAct (.sdump entries) ++ rest =
      leBytes 2 entries.length ++
        ((entries.map (fun e => leBytes 2 e.1)).flatten ++
          ((entries.map (fun e => e.2)).flatten ++ rest)) := by
    simp [encodeAct]
  rw [e1]
  unfold spReplay
  rw [if_neg (by simp)]
  rw [if_neg (show ¬(((leBytes 2 entries.length ++
      ((entries.map (fun e => leBytes 2 e.1)).flatten ++
        ((entries.map (fun e => e.2)).flatten ++ rest))).length) < 2) from by
    simp only [List.length_append, leBytes_length]; omega)]
  have hsz : leDec ((leBytes 2 entries.length ++
      ((entries.map (fun e => leBytes 2 e.1)).flatten ++
        ((entries.map (fun e => e.2)).flatten ++ rest))).take 2) =
      entries.length := by
    rw [take_prefix_of_length _ _ 2 (leBytes_length 2 _)]
    apply leDec_leBytes_of_lt
    have h2 : (256 : Nat) ^ 2 = 65536 := by norm_num
    omega
  dsimp only
  rw [hsz]
  rw [if_neg (show ¬(((leBytes 2 entries.length ++
      ((entries.map (fun e => leBytes 2 e.1)).flatten ++
        ((entries.map (fun e => e.2)).flatten ++ rest))).length) <
      2 + entries.length * 2) from by
    simp only [List.length_append, leBytes_length]
    omega)]
  have hentries : (List.range entries.length).map (fun i =>
      (leDec (((leBytes 2 entries.length ++
          ((entries.map (fun e => leBytes 2 e.1)).flatten ++
            ((entries.map (fun e => e.2)).flatten ++ rest))).drop
          (2 + i * 2)).take 2),
       ((leBytes 2 entries.length ++
          ((entries.map (fun e => leBytes 2 e.1)).flatten ++
            ((entries.map (fun e => e.2)).flatten ++ rest))).drop
          (2 + entries.length * 2 + i * W)).take W)) = entries := by
    have hpt : ∀ i ∈ List.range entries.length,
        (leDec (((leBytes 2 entries.length ++
            ((entries.map (fun e => leBytes 2 e.1)).flatten ++
              ((entries.map (fun e => e.2)).flatten ++ rest))).drop
            (2 + i * 2)).take 2),
         ((leBytes 2 entries.length ++
            ((entries.map (fun e => leBytes 2 e.1)).flatten ++
              ((entries.map (fun e => e.2)).flatten ++ rest))).drop
            (2 + entries.length * 2 + i * W)).take W) =
          entries.getD i (0, []) := by
      intro i hi
      have hi2 := List.mem_range.mp hi
      have hc1 : ((leBytes 2 entries.length ++
          ((entries.map (fun e => leBytes 2 e.1)).flatten ++
            ((entries.map (fun e => e.2)).flatten ++ rest))).drop
          (2 + i * 2)).take 2 = leBytes 2 ((entries.getD i (0, [])).1) := by
        rw [show 2 + i * 2 = (leBytes 2 entries.length).length + i * 2 from by
          rw [leBytes_length]]
        rw [List.drop_append]
        have := flatten_chunk (W := 2) (entries.map (fun e => leBytes 2 e.1))
          ((entries.map (fun e => e.2)).flatten ++ rest) i
          (by rw [List.length_map]; exact hi2) hbl
        rw [this]
        rw [List.getD_eq_getElem _ _ (by rw [List.length_map]; exact hi2)]
        rw [List.getElem_map]
        rw [List.getD_eq_getElem _ _ hi2]
      have hc2 : ((leBytes 2 entries.length ++
          ((entries.map (fun e => leBytes 2 e.1)).flatten ++
            ((entries.map (fun e => e.2)).flatten ++ rest))).drop
          (2 + entries.length * 2 + i * W)).take W =
          (entries.getD i (0, [])).2 := by
        have hre : leBytes 2 entries.length ++
            ((entries.map (fun e => leBytes 2 e.1)).flatten ++
              ((entries.map (fun e => e.2)).flatten ++ rest)) =
            (leBytes 2 entries.length ++
              (entries.map (fun e => leBytes 2 e.1)).flatten) ++
              ((entries.map (fun e => e.2)).flatten ++ rest) := by
          simp
        rw [hre]
        rw [show 2 + entries.length * 2 + i * W =
            ((leBytes 2 entries.length ++
              (entries.map (fun e => leBytes 2 e.1)).flatten)).length + i * W
          from by
            simp only [List.length_append, leBytes_length, hbinsLen]]
        rw [List.drop_append]
        have hwl : ∀ e ∈ entries.map (fun e => e.2), e.length = W := by
          intro e he
          rcases List.mem_map.mp he with ⟨q, hq, rfl⟩
          exact hws q hq
        have := flatten_chunk (W := W) (entries.map (fun e => e.2)) rest i
          (by rw [List.length_map]; exact hi2) hwl
        rw [this]
        rw [List.getD_eq_getElem _ _ (by rw [List.length_map]; exact hi2)]
        rw [List.getElem_map]
        rw [List.getD_eq_getElem _ _ hi2]
      rw [hc1, hc2]
      rw [leDec_leBytes_of_lt 2 _ (by
        have h2 : (256 : Nat) ^ 2 = 65536 := by norm_num
        have hmem : entries.getD i (0, []) ∈ entries := by
          rw [List.getD_eq_getElem _ _ hi2]
          exact List.getElem_mem _
        have := hbins _ hmem
        omega)]
    rw [List.map_congr_left hpt]
    exact map_getD_range (0, []) entries
  rw [hentries]

/-! ## Queue-discipline lemmas for the contiguous container -/

/-- One `ContigIterableReplayer.Replay` call on an encoded record. -/
def contigStep (W : Nat) (st : ContigSt) (ta : Nat × Act) :
    Except RErr ContigSt :=
  (cqReplay W st ta.1 (encodeAct ta.2) true).map (fun p => p.1)

/-- Replay of a stream of contig records. -/
def contigRun (W : Nat) (st : ContigSt) :
    List (Nat × Act) → Except RErr ContigSt
  | [] => .ok st
  | ta :: tas =>
      match contigStep W st ta with
      | .error e => .error e
      | .ok st2 => contigRun W st2 tas

/-- Payloads of the ARRIVE records, in stream order. -/
def arrivalsOf : List (Nat × Act) → List (List Nat)
  | [] => []
  | (_, .qarrive p) :: tas => p :: arrivalsOf tas
  | _ :: tas => arrivalsOf tas

/-- Number of DEPART records. -/
def departsOf : List (Nat × Act) → Nat
  | [] => 0
  | (_, .qdepart) :: tas => departsOf tas + 1
  | _ :: tas => departsOf tas

/-- FIFO discipline: a successful replay of ARRIVE/DEPART records from a
live list `L` ends with the first `departsOf` elements of
`L ++ arrivals` removed — order is arrival order, the oldest surviving
element sits at index 0, and no more departed than ever were present. -/
theorem contigRun_deltas (W : Nat) :
    ∀ (tas : List (Nat × Act)) (L : List (List Nat))
      (hist : List (Nat × List (List Nat))) (fin : ContigSt),
      (∀ ta ∈ tas, (∃ p, ta.2 = Act.qarrive p ∧ p.length = W) ∨
        ta.2 = Act.qdepart) →
      contigRun W ⟨some L, hist⟩ tas = .ok fin →
      fin.values = some ((L ++ arrivalsOf tas).drop (departsOf tas)) ∧
        departsOf tas ≤ L.length + (arrivalsOf tas).length := by
  intro tas
  induction tas with
  | nil =>
      intro L hist fin _ hrun
      have : Except.ok (ε := RErr) (⟨some L, hist⟩ : ContigSt) = .ok fin := hrun
      rw [← Except.ok.inj this]
      simp [arrivalsOf, departsOf]
  | cons ta tas ih =>
      intro L hist fin hkinds hrun
      obtain ⟨t, a⟩ := ta
      rcases hkinds (t, a) (List.mem_cons_self _ _) with ⟨p, ha, hplen⟩ | ha
      · -- ARRIVE
        simp only at ha
        subst ha
        unfold contigRun at hrun
        have hstep : contigStep W ⟨some L, hist⟩ (t, .qarrive p) =
            .ok ⟨some (L ++ [p]), alInsert hist t (L ++ [p])⟩ := by
          unfold contigStep
          rw [show encodeAct (Act.qarrive p) =
            encodeAct (Act.qarrive p) ++ [] from (List.append_nil _).symm]
          rw [cqReplay_arrive W ⟨some L, hist⟩ t p [] hplen]
          rfl
        rw [hstep] at hrun
        rcases ih (L ++ [p]) _ fin
          (fun q hq => hkinds q (List.mem_cons_of_mem _ hq)) hrun with ⟨h1, h2⟩
        constructor
        · rw [h1]
          simp [arrivalsOf, departsOf, List.append_assoc]
        · simp only [arrivalsOf, departsOf, List.length_cons]
          simp only [List.length_append, List.length_cons, List.length_nil] at h2
          omega
      · -- DEPART
        simp only at ha
        subst ha
        unfold contigRun at hrun
        cases L with
        | nil =>
            have hstep : contigStep W ⟨some [], hist⟩ (t, .qdepart) =
                .error .indexError := by
              unfold contigStep
              rw [show encodeAct Act.qdepart =
                encodeAct Act.qdepart ++ [] from (List.append_nil _).symm]
              rw [cqReplay_depart W ⟨some [], hist⟩ t []]
              rfl
            rw [hstep] at hrun
            exact absurd hrun (by simp)
        | cons x xs =>
            have hstep : contigStep W ⟨some (x :: xs), hist⟩ (t, .qdepart) =
                .ok ⟨some xs, alInsert hist t xs⟩ := by
              unfold contigStep
              rw [show encodeAct Act.qdepart =
                encodeAct Act.qdepart ++ [] from (List.append_nil _).symm]
              rw [cqReplay_depart W ⟨some (x :: xs), hist⟩ t []]
              rfl
            rw [hstep] at hrun
            rcases ih xs _ fin
              (fun q hq => hkinds q (List.mem_cons_of_mem _ hq)) hrun with ⟨h1, h2⟩
            constructor
            · rw [h1]
              simp [arrivalsOf, departsOf, List.drop_succ_cons]
            · simp only [arrivalsOf, departsOf, List.length_cons]
              omega

/-! ## Bucket lemmas for the sparse container -/

theorem getD_set_self {α : Type} (l : List α) (j : Nat) (a d : α)
    (h : j < l.length) : (l.set j a).getD j d = a := by
  rw [List.getD_eq_getElem _ _ (by simpa using h)]
  exact List.getElem_set_self _

theorem getD_set_ne {α : Type} (l : List α) (i j : Nat) (a d : α)
    (h : j ≠ i) : (l.set j a).getD i d = l.getD i d := by
  rcases Nat.lt_or_ge i l.length with hi | hi
  · rw [List.getD_eq_getElem _ _ (by simpa using hi),
      List.getD_eq_getElem _ _ hi]
    exact List.getElem_set_ne h _
  · rw [List.getD_eq_default _ _ (by simpa using hi),
      List.getD_eq_default _ _ hi]

theorem getD_replicate_self {α : Type} (n i : Nat) (c : α) :
    (List.replicate n c).getD i c = c := by
  rcases Nat.lt_or_ge i n with h | h
  · rw [List.getD_eq_getElem _ _ (by simpa using h), List.getElem_replicate]
  · rw [List.getD_eq_default _ _ (by simpa using h)]

/-- The bucket-write loop of the sparse replayer: with in-range, distinct
bucket indices it succeeds, writes each payload at its declared bucket,
and leaves every other bucket unchanged. -/
theorem spWrites_char (cap : Nat) :
    ∀ (entries : List (Nat × List Nat)) (vals : List (Option (List Nat))),
      vals.length = cap →
      (∀ e ∈ entries, e.1 < cap) →
      (entries.map Prod.fst).Nodup →
      ∃ out, entries.foldlM (spWrite cap) vals = .ok out ∧
        out.length = cap ∧
        (∀ e ∈ entries, out.getD e.1 Option.none = some e.2) ∧
        (∀ i, i ∉ entries.map Prod.fst →
          out.getD i Option.none = vals.getD i Option.none) := by
  intro entries
  induction entries with
  | nil =>
      intro vals hlen _ _
      exact ⟨vals, rfl, hlen, by simp, fun i _ => rfl⟩
  | cons e es ih =>
      intro vals hlen hlt hnd
      have he1 : e.1 < cap := hlt e (List.mem_cons_self e es)
      have hw : spWrite cap vals e = .ok (vals.set e.1 (some e.2)) := by
        unfold spWrite
        rw [if_pos ⟨he1, by omega⟩]
      rw [List.map_cons, List.nodup_cons] at hnd
      rcases ih (vals.set e.1 (some e.2)) (by simpa using hlen)
        (fun q hq => hlt q (List.mem_cons_of_mem e hq)) hnd.2 with
        ⟨out, hfold, hoLen, hset, hpres⟩
      refine ⟨out, ?_, hoLen, ?_, ?_⟩
      · rw [List.foldlM_cons, hw]
        exact hfold
      · intro q hq
        rcases List.mem_cons.mp hq with rfl | hq2
        · rw [hpres q.1 hnd.1]
          exact getD_set_self vals q.1 (some q.2) Option.none (by omega)
        · exact hset q hq2
      · intro i hi
        have hine : i ∉ es.map Prod.fst := by
          intro hmem
          exact hi (List.mem_cons_of_mem _ hmem)
        have hie : e.1 ≠ i := by
          intro heq
          exact hi (heq ▸ List.mem_cons_self _ _)
        rw [hpres i hine]
        exact getD_set_ne vals i e.1 (some e.2) Option.none hie

/-- Starting from the reset (all-empty) bucket array, a dump with distinct
in-range buckets leaves exactly `valid_count` buckets non-empty. -/
theorem sp_fresh_count (cap : Nat) (entries : List (Nat × List Nat))
    (out : List (Option (List Nat)))
    (hlt : ∀ e ∈ entries, e.1 < cap)
    (hnd : (entries.map Prod.fst).Nodup)
    (hset : ∀ e ∈ entries, out.getD e.1 Option.none = some e.2)
    (hpres : ∀ i, i ∉ entries.map Prod.fst →
      out.getD i Option.none =
        (List.replicate cap Option.none).getD i Option.none) :
    ((Finset.range cap).filter
      (fun i => (out.getD i Option.none).isSome = true)).card =
      entries.length := by
  have hiff : ∀ i ∈ Finset.range cap,
      ((out.getD i Option.none).isSome = true ↔
        i ∈ (entries.map Prod.fst).toFinset) := by
    intro i _
    constructor
    · intro hs
      by_contra hmem
      rw [List.mem_toFinset] at hmem
      have := hpres i hmem
      rw [getD_replicate_self] at this
      rw [this] at hs
      simp at hs
    · intro hmem
      rw [List.mem_toFinset] at hmem
      rcases List.mem_map.mp hmem with ⟨e, he, he2⟩
      rw [← he2, hset e he]
      rfl
  rw [Finset.filter_congr hiff]
  rw [Finset.filter_mem_eq_inter]
  rw [Finset.inter_eq_right.mpr (by
    intro x hx
    rw [List.mem_toFinset] at hx
    rcases List.mem_map.mp hx with ⟨e, he, he2⟩
    rw [Finset.mem_range]
    exact he2 ▸ hlt e he)]
  rw [List.toFinset_card_of_nodup hnd, List.length_map]

theorem alGet_alInsert_self {κ α : Type} [DecidableEq κ]
    (l : List (κ × α)) (k : κ) (v : α) :
    alGet (alInsert l k v) k = some v := by
  unfold alInsert
  by_cases h : l.any (fun p => decide (p.1 = k))
  · rw [if_pos h]
    rw [List.any_eq_true] at h
    rcases h with ⟨p, hp, hpe⟩
    have hpk : p.1 = k := of_decide_eq_true hpe
    clear hpe
    induction l with
    | nil => simp at hp
    | cons q l ih =>
        rcases List.mem_cons.mp hp with rfl | hp2
        · simp only [List.map_cons, if_pos hpk]
          exact alGet_cons_self k v _
        · by_cases hq : q.1 = k
          · simp only [List.map_cons, if_pos hq]
            exact alGet_cons_self k v _
          · simp only [List.map_cons, if_neg hq]
            simp only [alGet, List.find?_cons, decide_eq_false hq]
            exact ih hp2
  · rw [if_neg h]
    simp only [Bool.not_eq_true] at h
    rw [List.any_eq_false] at h
    rw [alGet_append_right l _ k (fun p hp => by
      have := h p hp
      simpa using this)]
    exact alGet_cons_self k v []

theorem alGet_map_update_ne {κ α : Type} [DecidableEq κ]
    (k k2 : κ) (v : α) (hne : k ≠ k2) :
    ∀ (l : List (κ × α)),
      alGet (l.map (fun p => if p.1 = k then (k, v) else p)) k2 = alGet l k2 := by
  intro l
  induction l with
  | nil => rfl
  | cons q l ih =>
      simp only [List.map_cons]
      by_cases hq : q.1 = k
      · rw [if_pos hq]
        simp only [alGet, List.find?_cons,
          decide_eq_false (show ¬(k = k2) from hne),
          decide_eq_false (show ¬(q.1 = k2) from by rw [hq]; exact hne)]
        exact ih
      · rw [if_neg hq]
        simp only [alGet, List.find?_cons]
        cases hd : decide (q.1 = k2) with
        | true => rfl
        | false => exact ih

theorem alGet_alInsert_ne {κ α : Type} [DecidableEq κ]
    (l : List (κ × α)) (k k2 : κ) (v : α) (hne : k ≠ k2) :
    alGet (alInsert l k v) k2 = alGet l k2 := by
  unfold alInsert
  by_cases h : l.any (fun p => decide (p.1 = k))
  · rw [if_pos h]
    exact alGet_map_update_ne k k2 v hne l
  · rw [if_neg h]
    rw [alGet_append]
    cases hg : alGet l k2 with
    | some v2 => rfl
    | none =>
        simp only [Option.orElse]
        simp [alGet, List.find?_cons, decide_eq_false (show ¬(k = k2) from hne)]

/-- Element width of a replayer. -/
def Replayer.width : Replayer → Nat
  | .pod w _ => w
  | .scalarStruct w _ => w
  | .contig w _ _ => w
  | .sparse w _ _ => w

/-- Class tag of a replayer (0 POD, 1 scalar struct, 2 contiguous
container, 3 sparse container). -/
def Replayer.kindTag : Replayer → Nat
  | .pod _ _ => 0
  | .scalarStruct _ _ => 1
  | .contig _ _ _ => 2
  | .sparse _ _ _ => 3

/-- Well-formedness of a record body for a replayer of the given class
tag, width and auto-collected flag: the action belongs to that class's
grammar and every fixed-width field has its declared width. -/
def wfActB (kind w : Nat) (auto : Bool) : Act → Bool
  | .direct p => (decide (kind = 0) || decide (kind = 1)) &&
      decide (p.length = w) && decide (1 ≤ w) &&
      (decide (w < 16) || !auto)
  | .swrite p => decide (kind = 1) && auto && decide (16 ≤ w) &&
      decide (p.length = w)
  | .scarry => decide (kind = 1) && auto && decide (16 ≤ w)
  | .qfull es => decide (kind = 2) && auto && decide (es.length < 65536) &&
      es.all (fun e => decide (e.length = w))
  | .qarrive p => decide (kind = 2) && auto && decide (p.length = w)
  | .qdepart => decide (kind = 2) && auto
  | .qbookends p => decide (kind = 2) && auto && decide (p.length = w)
  | .qchange i p => decide (kind = 2) && auto && decide (i < 65536) &&
      decide (p.length = w)
  | .qcarry => decide (kind = 2) && auto
  | .sdump entries => decide (kind = 3) && auto &&
      decide (entries.length < 65536) &&
      entries.all (fun e => decide (e.1 < 65536) && decide (e.2.length = w))

/-- A well-formed record image's length is exactly the action table's
byte count. -/
theorem encodeAct_length (kind w : Nat) (auto : Bool) (a : Act)
    (hwf : wfActB kind w auto a = true) :
    (encodeAct a).length = actSize w a := by
  cases a with
  | direct p =>
      simp only [wfActB, Bool.and_eq_true, decide_eq_true_eq] at hwf
      simp [encodeAct, actSize, hwf.1.1.2]
  | swrite p =>
      simp only [wfActB, Bool.and_eq_true, decide_eq_true_eq] at hwf
      simp [encodeAct, actSize, hwf.2]
      omega
  | scarry => rfl
  | qfull es =>
      simp only [wfActB, Bool.and_eq_true, decide_eq_true_eq,
        List.all_eq_true] at hwf
      have hfl : es.flatten.length = es.length * w :=
        flatten_length_const w es (fun e he => hwf.2 e he)
      simp [encodeAct, actSize, leBytes_length, hfl]
      omega
  | qarrive p =>
      simp only [wfActB, Bool.and_eq_true, decide_eq_true_eq] at hwf
      simp [encodeAct, actSize, hwf.2]
      omega
  | qdepart => rfl
  | qbookends p =>
      simp only [wfActB, Bool.and_eq_true, decide_eq_true_eq] at hwf
      simp [encodeAct, actSize, hwf.2]
      omega
  | qchange i p =>
      simp only [wfActB, Bool.and_eq_true, decide_eq_true_eq] at hwf
      simp [encodeAct, actSize, leBytes_length, hwf.2]
      omega
  | qcarry => rfl
  | sdump entries =>
      simp only [wfActB, Bool.and_eq_true, decide_eq_true_eq,
        List.all_eq_true] at hwf
      have hfl1 : ((entries.map (fun e => leBytes 2 e.1)).flatten).length =
          entries.length * 2 := by
        rw [flatten_length_const 2 _ (by
          intro e he
          rcases List.mem_map.mp he with ⟨q, _, rfl⟩
          exact leBytes_length 2 q.1)]
        simp
      have hfl2 : ((entries.map (fun e => e.2)).flatten).length =
          entries.length * w := by
        rw [flatten_length_const w _ (by
          intro e he
          rcases List.mem_map.mp he with ⟨q, hq, rfl⟩
          exact (hwf.2 q hq).2)]
        simp
      simp [encodeAct, actSize, leBytes_length, hfl1, hfl2]
      omega

theorem size_of_ok {x r' : Replayer} {m n : Nat}
    (h : (Except.ok (x, m) : Except RErr (Replayer × Nat)) = .ok (r', n)) :
    r' = x ∧ n = m := by
  simp only [Except.ok.injEq, Prod.mk.injEq] at h
  exact ⟨h.1.symm, h.2.symm⟩

/-- Replaying a well-formed record is insensitive to the bytes that follow
it in the shared blob, and a successful call consumes exactly the action
table's byte count while preserving the replayer's class and width. -/
theorem replay_pad_size (r : Replayer) (auto : Bool) (a : Act) (t : Nat)
    (rest : List Nat)
    (hwf : wfActB r.kindTag r.width auto a = true) :
    Replayer.Replay r t (encodeAct a ++ rest) auto =
      Replayer.Replay r t (encodeAct a) auto ∧
    (∀ r' n, Replayer.Replay r t (encodeAct a) auto = .ok (r', n) →
      n = actSize r.width a ∧ r'.kindTag = r.kindTag ∧ r'.width = r.width) := by
  cases a with
  | direct p =>
      cases r with
      | pod w hist =>
          simp only [Replayer.kindTag, Replayer.width, wfActB, Bool.and_eq_true,
            Bool.or_eq_true, decide_eq_true_eq] at hwf
          have hplen : p.length = w := hwf.1.1.2
          have hcond : w < 16 ∨ auto = false := by
            rcases hwf.2 with h | h
            · exact Or.inl h
            · right; revert h; cases auto <;> simp
          have hU := podReplay_direct w hist t p [] auto hcond hplen
          rw [List.append_nil] at hU
          have hP := podReplay_direct w hist t p rest auto hcond hplen
          constructor
          · simp only [Replayer.Replay, encodeAct]
            rw [hP, hU]
          · intro r' n h
            simp only [Replayer.Replay, encodeAct] at h
            rw [hU] at h
            simp only [Except.map] at h
            rcases size_of_ok h with ⟨rfl, rfl⟩
            exact ⟨rfl, rfl, rfl⟩
      | scalarStruct w hist =>
          simp only [Replayer.kindTag, Replayer.width, wfActB, Bool.and_eq_true,
            Bool.or_eq_true, decide_eq_true_eq] at hwf
          have hplen : p.length = w := hwf.1.1.2
          have hcond : w < 16 ∨ auto = false := by
            rcases hwf.2 with h | h
            · exact Or.inl h
            · right; revert h; cases auto <;> simp
          have hU := ssReplay_direct w hist t p [] auto hcond hplen
          rw [List.append_nil] at hU
          have hP := ssReplay_direct w hist t p rest auto hcond hplen
          constructor
          · simp only [Replayer.Replay, encodeAct]
            rw [hP, hU]
          · intro r' n h
            simp only [Replayer.Replay, encodeAct] at h
            rw [hU] at h
            simp only [Except.map] at h
            rcases size_of_ok h with ⟨rfl, rfl⟩
            exact ⟨rfl, rfl, rfl⟩
      | contig w cap st => exact absurd hwf (by simp [wfActB, Replayer.kindTag])
      | sparse w cap st => exact absurd hwf (by simp [wfActB, Replayer.kindTag])
  | swrite p =>
      cases r with
      | pod w hist => exact absurd hwf (by simp [wfActB, Replayer.kindTag])
      | contig w cap st => exact absurd hwf (by simp [wfActB, Replayer.kindTag])
      | sparse w cap st => exact absurd hwf (by simp [wfActB, Replayer.kindTag])
      | scalarStruct w hist =>
          simp only [Replayer.kindTag, Replayer.width, wfActB, Bool.and_eq_true,
            decide_eq_true_eq] at hwf
          obtain ⟨⟨⟨_, hauto⟩, hw⟩, hplen⟩ := hwf
          subst hauto
          have hU := ssReplay_write16 w hist t p hw
          have hP := ssReplay_write16 w hist t (p ++ rest) hw
          rw [take_prefix_of_length p rest w hplen] at hP
          have htk : List.take w p = p := by
            rw [← hplen]; simp
          rw [htk] at hU
          constructor
          · simp only [Replayer.Replay, encodeAct]
            rw [show (0 :: p) ++ rest = 0 :: (p ++ rest) from rfl]
            rw [hP, hU]
          · intro r' n h
            simp only [Replayer.Replay, encodeAct] at h
            rw [hU] at h
            simp only [Except.map] at h
            rcases size_of_ok h with ⟨rfl, rfl⟩
            refine ⟨?_, rfl, rfl⟩
            simp [actSize, Replayer.width]
  | scarry =>
      cases r with
      | pod w hist => exact absurd hwf (by simp [wfActB, Replayer.kindTag])
      | contig w cap st => exact absurd hwf (by simp [wfActB, Replayer.kindTag])
      | sparse w cap st => exact absurd hwf (by simp [wfActB, Replayer.kindTag])
      | scalarStruct w hist =>
          simp only [Replayer.kindTag, Replayer.width, wfActB, Bool.and_eq_true,
            decide_eq_true_eq] at hwf
          obtain ⟨⟨_, hauto⟩, hw⟩ := hwf
          subst hauto
          have hU := ssReplay_carry16 w hist t hw
          have hP := ssReplay_carry16_pad w hist t rest hw
          constructor
          · simp only [Replayer.Replay, encodeAct]
            rw [show ([1] : List Nat) ++ rest = 1 :: rest from rfl]
            rw [hP, hU]
          · intro r' n h
            simp only [Replayer.Replay, encodeAct] at h
            rw [hU] at h
            cases hpt : getLastTick hist t with
            | none => rw [hpt] at h; exact absurd h (by simp [Except.map])
            | some pt =>
                rw [hpt] at h
                dsimp only at h
                cases hg : alGet hist pt with
                | none => rw [hg] at h; exact absurd h (by simp [Except.map])
                | some v =>
                    rw [hg] at h
                    dsimp only at h
                    simp only [Except.map] at h
                    rcases size_of_ok h with ⟨rfl, rfl⟩
                    exact ⟨rfl, rfl, rfl⟩
  | qfull es =>
      cases r with
      | pod w hist => exact absurd hwf (by simp [wfActB, Replayer.kindTag])
      | scalarStruct w hist => exact absurd hwf (by simp [wfActB, Replayer.kindTag])
      | sparse w cap st => exact absurd hwf (by simp [wfActB, Replayer.kindTag])
      | contig w cap st =>
          simp only [Replayer.kindTag, Replayer.width, wfActB, Bool.and_eq_true,
            decide_eq_true_eq, List.all_eq_true] at hwf
          obtain ⟨⟨⟨_, hauto⟩, hcnt⟩, hlens⟩ := hwf
          subst hauto
          have hlens2 : ∀ e ∈ es, e.length = w := fun e he => hlens e he
          have hU := cqReplay_full w st t es [] hcnt hlens2
          rw [List.append_nil] at hU
          have hP := cqReplay_full w st t es rest hcnt hlens2
          constructor
          · simp only [Replayer.Replay]
            rw [hP, hU]
          · intro r' n h
            simp only [Replayer.Replay] at h
            rw [hU] at h
            simp only [Except.map] at h
            rcases size_of_ok h with ⟨rfl, rfl⟩
            exact ⟨rfl, rfl, rfl⟩
  | qarrive p =>
      cases r with
      | pod w hist => exact absurd hwf (by simp [wfActB, Replayer.kindTag])
      | scalarStruct w hist => exact absurd hwf (by simp [wfActB, Replayer.kindTag])
      | sparse w cap st => exact absurd hwf (by simp [wfActB, Replayer.kindTag])
      | contig w cap st =>
          simp only [Replayer.kindTag, Replayer.width, wfActB, Bool.and_eq_true,
            decide_eq_true_eq] at hwf
          obtain ⟨⟨_, hauto⟩, hplen⟩ := hwf
          subst hauto
          have hU := cqReplay_arrive w st t p [] hplen
          rw [List.append_nil] at hU
          have hP := cqReplay_arrive w st t p rest hplen
          constructor
          · simp only [Replayer.Replay]
            rw [hP, hU]
          · intro r' n h
            simp only [Replayer.Replay] at h
            rw [hU] at h
            cases hv : st.values with
            | none =>
                rw [hv] at h
                dsimp only at h
                simp only [Except.map] at h
                rcases size_of_ok h with ⟨rfl, rfl⟩
                exact ⟨rfl, rfl, rfl⟩
            | some vs =>
                rw [hv] at h
                dsimp only at h
                simp only [Except.map] at h
                rcases size_of_ok h with ⟨rfl, rfl⟩
                exact ⟨rfl, rfl, rfl⟩
  | qdepart =>
      cases r with
      | pod w hist => exact absurd hwf (by simp [wfActB, Replayer.kindTag])
      | scalarStruct w hist => exact absurd hwf (by simp [wfActB, Replayer.kindTag])
      | sparse w cap st => exact absurd hwf (by simp [wfActB, Replayer.kindTag])
      | contig w cap st =>
          simp only [Replayer.kindTag, Replayer.width, wfActB, Bool.and_eq_true,
            decide_eq_true_eq] at hwf
          obtain ⟨_, hauto⟩ := hwf
          subst hauto
          have hU := cqReplay_depart w st t []
          rw [List.append_nil] at hU
          have hP := cqReplay_depart w st t rest
          constructor
          · simp only [Replayer.Replay]
            rw [hP, hU]
          · intro r' n h
            simp only [Replayer.Replay] at h
            rw [hU] at h
            cases hv : st.values with
            | none =>
                rw [hv] at h
                dsimp only at h
                simp only [Except.map] at h
                rcases size_of_ok h with ⟨rfl, rfl⟩
                exact ⟨rfl, rfl, rfl⟩
            | some vs =>
                rw [hv] at h
                cases vs with
                | nil =>
                    dsimp only at h
                    exact absurd h (by simp [Except.map])
                | cons x xs =>
                    dsimp only at h
                    simp only [Except.map] at h
                    rcases size_of_ok h with ⟨rfl, rfl⟩
                    exact ⟨rfl, rfl, rfl⟩
  | qbookends p =>
      cases r with
      | pod w hist => exact absurd hwf (by simp [wfActB, Replayer.kindTag])
      | scalarStruct w hist => exact absurd hwf (by simp [wfActB, Replayer.kindTag])
      | sparse w cap st => exact absurd hwf (by simp [wfActB, Replayer.kindTag])
      | contig w cap st =>
          simp only [Replayer.kindTag, Replayer.width, wfActB, Bool.and_eq_true,
            decide_eq_true_eq] at hwf
          obtain ⟨⟨_, hauto⟩, hplen⟩ := hwf
          subst hauto
          have hU := cqReplay_bookends w st t p [] hplen
          rw [List.append_nil] at hU
          have hP := cqReplay_bookends w st t p rest hplen
          constructor
          · simp only [Replayer.Replay]
            rw [hP, hU]
          · intro r' n h
            simp only [Replayer.Replay] at h
            rw [hU] at h
            cases hv : st.values with
            | none =>
                rw [hv] at h
                dsimp only at h
                simp only [Except.map] at h
                rcases size_of_ok h with ⟨rfl, rfl⟩
                exact ⟨rfl, rfl, rfl⟩
            | some vs =>
                rw [hv] at h
                dsimp only at h
                simp only [Except.map] at h
                rcases size_of_ok h with ⟨rfl, rfl⟩
                exact ⟨rfl, rfl, rfl⟩
  | qchange i p =>
      cases r with
      | pod w hist => exact absurd hwf (by simp [wfActB, Replayer.kindTag])
      | scalarStruct w hist => exact absurd hwf (by simp [wfActB, Replayer.kindTag])
      | sparse w cap st => exact absurd hwf (by simp [wfActB, Replayer.kindTag])
      | contig w cap st =>
          simp only [Replayer.kindTag, Replayer.width, wfActB, Bool.and_eq_true,
            decide_eq_true_eq] at hwf
          obtain ⟨⟨⟨_, hauto⟩, hi⟩, hplen⟩ := hwf
          subst hauto
          have hU := cqReplay_change w st t i p [] hi hplen
          rw [List.append_nil] at hU
          have hP := cqReplay_change w st t i p rest hi hplen
          constructor
          · simp only [Replayer.Replay]
            rw [hP, hU]
          · intro r' n h
            simp only [Replayer.Replay] at h
            rw [hU] at h
            cases hv : st.values with
            | none =>
                rw [hv] at h
                dsimp only at h
                simp only [Except.map] at h
                rcases size_of_ok h with ⟨rfl, rfl⟩
                exact ⟨rfl, rfl, rfl⟩
            | some vs =>
                rw [hv] at h
                dsimp only at h
                by_cases hlt : i < vs.length
                · rw [if_pos hlt] at h
                  simp only [Except.map] at h
                  rcases size_of_ok h with ⟨rfl, rfl⟩
                  exact ⟨rfl, rfl, rfl⟩
                · rw [if_neg hlt] at h
                  exact absurd h (by simp [Except.map])
  | qcarry =>
      cases r with
      | pod w hist => exact absurd hwf (by simp [wfActB, Replayer.kindTag])
      | scalarStruct w hist => exact absurd hwf (by simp [wfActB, Replayer.kindTag])
      | sparse w cap st => exact absurd hwf (by simp [wfActB, Replayer.kindTag])
      | contig w cap st =>
          simp only [Replayer.kindTag, Replayer.width, wfActB, Bool.and_eq_true,
            decide_eq_true_eq] at hwf
          obtain ⟨_, hauto⟩ := hwf
          subst hauto
          have hU := cqReplay_carryAct w st t []
          rw [List.append_nil] at hU
          have hP := cqReplay_carryAct w st t rest
          constructor
          · simp only [Replayer.Replay]
            rw [hP, hU]
          · intro r' n h
            simp only [Replayer.Replay] at h
            rw [hU] at h
            cases hv : st.values with
            | none =>
                rw [hv] at h
                dsimp only at h
                simp only [Except.map] at h
                rcases size_of_ok h with ⟨rfl, rfl⟩
                exact ⟨rfl, rfl, rfl⟩
            | some vs =>
                rw [hv] at h
                dsimp only at h
                cases hpt : getLastTick st.hist t with
                | none => rw [hpt] at h; exact absurd h (by simp [Except.map])
                | some pt =>
                    rw [hpt] at h
                    dsimp only at h
                    cases hg : alGet st.hist pt with
                    | none => rw [hg] at h; exact absurd h (by simp [Except.map])
                    | some v2 =>
                        rw [hg] at h
                        dsimp only at h
                        simp only [Except.map] at h
                        rcases size_of_ok h with ⟨rfl, rfl⟩
                        exact ⟨rfl, rfl, rfl⟩
  | sdump entries =>
      cases r with
      | pod w hist => exact absurd hwf (by simp [wfActB, Replayer.kindTag])
      | scalarStruct w hist => exact absurd hwf (by simp [wfActB, Replayer.kindTag])
      | contig w cap st => exact absurd hwf (by simp [wfActB, Replayer.kindTag])
      | sparse w cap st =>
          simp only [Replayer.kindTag, Replayer.width, wfActB, Bool.and_eq_true,
            decide_eq_true_eq, List.all_eq_true] at hwf
          obtain ⟨⟨⟨_, hauto⟩, hk⟩, hws⟩ := hwf
          subst hauto
          have hbins : ∀ e ∈ entries, e.1 < 65536 := fun e he => (hws e he).1
          have hwids : ∀ e ∈ entries, e.2.length = w := fun e he => (hws e he).2
          have hU := spReplay_dump w cap st t entries [] hk hbins hwids
          rw [List.append_nil] at hU
          have hP := spReplay_dump w cap st t entries rest hk hbins hwids
          constructor
          · simp only [Replayer.Replay]
            rw [hP, hU]
          · intro r' n h
            simp only [Replayer.Replay] at h
            rw [hU] at h
            cases hf : entries.foldlM (spWrite cap) st.values with
            | error e => rw [hf] at h; exact absurd h (by simp [Except.map])
            | ok vals =>
                rw [hf] at h
                dsimp only at h
                simp only [Except.map] at h
                rcases size_of_ok h with ⟨rfl, rfl⟩
                exact ⟨rfl, rfl, rfl⟩

theorem actSize_pos (kind w : Nat) (auto : Bool) (a : Act)
    (hwf : wfActB kind w auto a = true) : 1 ≤ actSize w a := by
  cases a with
  | direct p =>
      simp only [wfActB, Bool.and_eq_true, decide_eq_true_eq] at hwf
      have h1 : 1 ≤ w := hwf.1.2
      show 1 ≤ w
      exact h1
  | swrite p => show 1 ≤ 1 + w; omega
  | scarry => show 1 ≤ 1; omega
  | qfull es => show 1 ≤ 3 + es.length * w; omega
  | qarrive p => show 1 ≤ 1 + w; omega
  | qdepart => show 1 ≤ 1; omega
  | qbookends p => show 1 ≤ 1 + w; omega
  | qchange i p => show 1 ≤ 3 + w; omega
  | qcarry => show 1 ≤ 1; omega
  | sdump entries => show 1 ≤ 2 + entries.length * 2 + entries.length * w; omega

/-- Class tag and width of the replayer registered under a collectable id. -/
def kwOf (reps : List (Nat × Replayer)) (c : Nat) : Option (Nat × Nat) :=
  (alGet reps c).map (fun r => (r.kindTag, r.width))

theorem kwOf_insert (reps : List (Nat × Replayer)) (cid : Nat)
    (r r' : Replayer) (h : alGet reps cid = some r)
    (hk : r'.kindTag = r.kindTag) (hw : r'.width = r.width) (c : Nat) :
    kwOf (alInsert reps cid r') c = kwOf reps c := by
  by_cases hc : cid = c
  · subst hc
    unfold kwOf
    rw [alGet_alInsert_self, h]
    simp [hk, hw]
  · unfold kwOf
    rw [alGet_alInsert_ne reps cid c r' hc]

/-- A record as laid out in the tick blob: two little-endian id bytes
followed by the action's encoding. -/
def encodeRecord (p : Nat × Act) : List Nat :=
  leBytes 2 p.1 ++ encodeAct p.2

/-- A well-formed tick blob: the records laid out back to back. -/
def blobOfRecords (recs : List (Nat × Act)) : List Nat :=
  (recs.map encodeRecord).flatten

/-- Record-level reference run: replay each action against its registered
replayer in order, returning the final registry and each call's
`bytes_consumed`. -/
def runRecordsC (autoCids : List Nat) (tick : Nat) :
    List (Nat × Act) → List (Nat × Replayer) →
    Except RErr (List (Nat × Replayer) × List Nat)
  | [], reps => .ok (reps, [])
  | p :: rs, reps =>
      match alGet reps p.1 with
      | Option.none => .error .keyError
      | some r =>
          match r.Replay tick (encodeAct p.2) (autoCids.contains p.1) with
          | .error e => .error e
          | .ok (r', n) =>
              match runRecordsC autoCids tick rs (alInsert reps p.1 r') with
              | .error e => .error e
              | .ok (reps2, ns) => .ok (reps2, n :: ns)

theorem demuxGo_succ (autoCids : List Nat) (t fuel : Nat) (blob : List Nat)
    (reps : List (Nat × Replayer)) :
    demuxGo autoCids t (fuel + 1) blob reps =
      if blob.length < 2 then .error .structError
      else
        match alGet reps (leDec (blob.take 2)) with
        | Option.none => .error .keyError
        | some r =>
            match r.Replay t (blob.drop 2)
                (autoCids.contains (leDec (blob.take 2))) with
            | .error e => .error e
            | .ok (r', n) =>
                if n = 0 then .ok (alInsert reps (leDec (blob.take 2)) r')
                else if ((blob.drop 2).drop n).length = 0 then
                  .ok (alInsert reps (leDec (blob.take 2)) r')
                else demuxGo autoCids t fuel ((blob.drop 2).drop n)
                  (alInsert reps (leDec (blob.take 2)) r') := rfl

theorem blobOfRecords_cons (p : Nat × Act) (rs : List (Nat × Act)) :
    blobOfRecords (p :: rs) =
      leBytes 2 p.1 ++ (encodeAct p.2 ++ blobOfRecords rs) := by
  simp [blobOfRecords, encodeRecord, List.append_assoc]

/-- Demultiplexing a blob of well-formed back-to-back records agrees with
the record-level reference run, each call consumes the action table's
count, and the id bytes plus the consumed counts tile the blob exactly. -/
theorem demux_flatten (autoCids : List Nat) (t : Nat) :
    ∀ (recs : List (Nat × Act)) (reps reps' : List (Nat × Replayer))
      (ns : List Nat),
      (∀ p ∈ recs, ∃ kw, kwOf reps p.1 = some kw ∧
        wfActB kw.1 kw.2 (autoCids.contains p.1) p.2 = true) →
      (∀ p ∈ recs, p.1 < 65536) →
      runRecordsC autoCids t recs reps = .ok (reps', ns) →
      (∀ c, kwOf reps' c = kwOf reps c) ∧
      (blobOfRecords recs).length = (ns.map (fun n => 2 + n)).sum ∧
      ns = recs.map (fun p =>
        match kwOf reps p.1 with
        | some kw => actSize kw.2 p.2
        | Option.none => 0) ∧
      (∀ fuel, (blobOfRecords recs).length < fuel → recs ≠ [] →
        demuxGo autoCids t fuel (blobOfRecords recs) reps = .ok reps') := by
  intro recs
  induction recs with
  | nil =>
      intro reps reps' ns hwf hcid h
      simp only [runRecordsC, Except.ok.injEq, Prod.mk.injEq] at h
      obtain ⟨h1, h2⟩ := h
      subst h1; subst h2
      refine ⟨fun c => rfl, rfl, rfl, ?_⟩
      intro fuel hfuel hne
      exact absurd rfl hne
  | cons p rs ih =>
      intro reps reps' ns hwf hcid h
      obtain ⟨kw, hkw, hwfp⟩ := hwf p (List.mem_cons_self p rs)
      cases hg : alGet reps p.1 with
      | none => rw [kwOf, hg] at hkw; exact absurd hkw (by simp)
      | some r =>
          rw [kwOf, hg] at hkw
          simp only [Option.map_some', Option.some.injEq] at hkw
          rw [← hkw] at hwfp
          simp only [runRecordsC] at h
          rw [hg] at h
          dsimp only at h
          have hps := replay_pad_size r (autoCids.contains p.1) p.2 t
            (blobOfRecords rs) hwfp
          cases hrep : r.Replay t (encodeAct p.2) (autoCids.contains p.1) with
          | error e => rw [hrep] at h; exact absurd h (by simp)
          | ok pr =>
              obtain ⟨r', n⟩ := pr
              rw [hrep] at h
              dsimp only at h
              obtain ⟨hn, hk2, hw2⟩ := hps.2 r' n hrep
              cases hrun : runRecordsC autoCids t rs (alInsert reps p.1 r') with
              | error e => rw [hrun] at h; exact absurd h (by simp)
              | ok pr2 =>
                  obtain ⟨reps2, ns2⟩ := pr2
                  rw [hrun] at h
                  dsimp only at h
                  simp only [Except.ok.injEq, Prod.mk.injEq] at h
                  obtain ⟨h1, h2⟩ := h
                  subst h1; subst h2
                  have hkwins := kwOf_insert reps p.1 r r' hg hk2 hw2
                  have hwf2 : ∀ q ∈ rs, ∃ kw2,
                      kwOf (alInsert reps p.1 r') q.1 = some kw2 ∧
                      wfActB kw2.1 kw2.2 (autoCids.contains q.1) q.2 = true := by
                    intro q hq
                    obtain ⟨kw2, hkw2, hwfq⟩ := hwf q (List.mem_cons_of_mem p hq)
                    exact ⟨kw2, by rw [hkwins q.1]; exact hkw2, hwfq⟩
                  have hcid2 : ∀ q ∈ rs, q.1 < 65536 :=
                    fun q hq => hcid q (List.mem_cons_of_mem p hq)
                  obtain ⟨ihA, ihB, ihC, ihD⟩ :=
                    ih (alInsert reps p.1 r') reps2 ns2 hwf2 hcid2 hrun
                  have hea : (encodeAct p.2).length = actSize r.width p.2 :=
                    encodeAct_length r.kindTag r.width (autoCids.contains p.1)
                      p.2 hwfp
                  have hblen : (blobOfRecords (p :: rs)).length =
                      2 + n + (blobOfRecords rs).length := by
                    rw [blobOfRecords_cons]
                    simp [leBytes_length, hea, hn]
                    omega
                  refine ⟨?_, ?_, ?_, ?_⟩
                  · intro c
                    rw [ihA c, hkwins c]
                  · rw [hblen, List.map_cons, List.sum_cons, ihB]
                  · rw [List.map_cons]
                    have hhead : (match kwOf reps p.1 with
                        | some kw => actSize kw.2 p.2
                        | Option.none => 0) = n := by
                      rw [kwOf, hg]
                      simp only [Option.map_some']
                      exact hn.symm
                    rw [hhead, ihC]
                    have htail : rs.map (fun q =>
                        match kwOf (alInsert reps p.1 r') q.1 with
                        | some kw => actSize kw.2 q.2
                        | Option.none => 0) = rs.map (fun q =>
                        match kwOf reps q.1 with
                        | some kw => actSize kw.2 q.2
                        | Option.none => 0) := by
                      apply List.map_congr_left
                      intro q hq
                      rw [hkwins q.1]
                    rw [htail]
                  · intro fuel hfuel hne
                    cases fuel with
                    | zero => exact absurd hfuel (by omega)
                    | succ m =>
                        have hlen2 : ¬ (blobOfRecords (p :: rs)).length < 2 := by
                          rw [hblen]; omega
                        have htake : (blobOfRecords (p :: rs)).take 2 =
                            leBytes 2 p.1 := by
                          rw [blobOfRecords_cons]
                          exact take_prefix_of_length _ _ 2 (leBytes_length 2 p.1)
                        have hdrop : (blobOfRecords (p :: rs)).drop 2 =
                            encodeAct p.2 ++ blobOfRecords rs := by
                          rw [blobOfRecords_cons]
                          exact drop_prefix_of_length _ _ 2 (leBytes_length 2 p.1)
                        have hcidv : leDec ((blobOfRecords (p :: rs)).take 2) =
                            p.1 := by
                          rw [htake]
                          exact leDec_leBytes_of_lt 2 p.1
                            (hcid p (List.mem_cons_self p rs))
                        rw [demuxGo_succ, if_neg hlen2, hcidv, hg]
                        dsimp only
                        rw [hdrop, hps.1, hrep]
                        dsimp only
                        have hn0 : ¬ n = 0 := by
                          have := actSize_pos r.kindTag r.width
                            (autoCids.contains p.1) p.2 hwfp
                          omega
                        rw [if_neg hn0]
                        have hdropn : (encodeAct p.2 ++ blobOfRecords rs).drop n =
                            blobOfRecords rs := by
                          rw [hn]
                          exact drop_prefix_of_length _ _ _ hea
                        rw [hdropn]
                        cases rs with
                        | nil =>
                            rw [if_pos (by simp [blobOfRecords])]
                            simp only [runRecordsC, Except.ok.injEq,
                              Prod.mk.injEq] at hrun
                            rw [hrun.1]
                        | cons q qs =>
                            have hqlen : (blobOfRecords (q :: qs)).length =
                                2 + (encodeAct q.2).length +
                                  (blobOfRecords qs).length := by
                              rw [blobOfRecords_cons]
                              simp [leBytes_length]
                              omega
                            rw [if_neg (by omega)]
                            apply ihD m (by omega)
                            simp

/-- Fixed offset of declared field `i`: the summed widths of every declared
field before it, visible or not. -/
def fieldOffset (fields : List (String × FieldDes)) (i : Nat) : Nat :=
  ((fields.take i).map (fun f => fieldWidth f.2)).sum

/-- The visible fields together with their fixed cursor offsets, in declared
order; hidden fields advance the cursor without being emitted. -/
def visibleFieldsAt (visible : List String) :
    List (String × FieldDes) → Nat → List (String × FieldDes × Nat)
  | [], _ => []
  | (nm, fd) :: rest, start =>
      if visible.contains nm then
        (nm, fd, start) :: visibleFieldsAt visible rest (start + fieldWidth fd)
      else visibleFieldsAt visible rest (start + fieldWidth fd)

/-- Decode one visible field from the byte window at its fixed offset. -/
def decodeOne (blob : List Nat) (p : String × FieldDes × Nat) :
    Except RErr (String × PyVal) :=
  (fieldDeserialize p.2.1 ((blob.drop p.2.2).take (fieldWidth p.2.1))).map
    (fun v => (p.1, v))

/-- Decode every listed visible field from its fixed window, failing on the
first field error. -/
def decodeAll (blob : List Nat) :
    List (String × FieldDes × Nat) → Except RErr (List (String × PyVal))
  | [] => .ok []
  | p :: ps =>
      match decodeOne blob p with
      | .error e => .error e
      | .ok kv => (decodeAll blob ps).map (fun l => kv :: l)

theorem sdGo_eq_spec (blob : List Nat) (visible : List String) :
    ∀ (fields : List (String × FieldDes)) (start : Nat)
      (res : List (String × PyVal)),
      sdGo blob visible fields start res =
        (decodeAll blob (visibleFieldsAt visible fields start)).map
          (fun l => res ++ l) := by
  intro fields
  induction fields with
  | nil =>
      intro start res
      simp [sdGo, visibleFieldsAt, decodeAll, Except.map]
  | cons f rest ih =>
      intro start res
      obtain ⟨nm, fd⟩ := f
      by_cases hv : visible.contains nm
      · simp only [sdGo, visibleFieldsAt, hv, if_pos]
        cases hfd : fieldDeserialize fd ((blob.drop start).take (fieldWidth fd)) with
        | error e =>
            simp [decodeAll, decodeOne, hfd, Except.map]
        | ok v =>
            dsimp only
            rw [ih (start + fieldWidth fd) (res ++ [(nm, v)])]
            cases hm : decodeAll blob
                (visibleFieldsAt visible rest (start + fieldWidth fd)) with
            | error e =>
                simp [decodeAll, decodeOne, hfd, hm, Except.map]
            | ok l =>
                simp [decodeAll, decodeOne, hfd, hm, Except.map]
      · simp only [sdGo, visibleFieldsAt, hv, if_neg, Bool.false_eq_true,
          not_false_iff]
        exact ih (start + fieldWidth fd) res

theorem visibleFieldsAt_keys (visible : List String) :
    ∀ (fields : List (String × FieldDes)) (start : Nat),
      (visibleFieldsAt visible fields start).map Prod.fst =
        (fields.filter (fun f => visible.contains f.1)).map Prod.fst := by
  intro fields
  induction fields with
  | nil => intro start; simp [visibleFieldsAt]
  | cons f rest ih =>
      intro start
      obtain ⟨nm, fd⟩ := f
      by_cases hv : nm ∈ visible
      · simp [visibleFieldsAt, hv, List.filter_cons, ih]
      · simp [visibleFieldsAt, hv, List.filter_cons, ih]

theorem fieldOffset_zero (fields : List (String × FieldDes)) :
    fieldOffset fields 0 = 0 := by
  simp [fieldOffset]

theorem fieldOffset_succ (f : String × FieldDes)
    (rest : List (String × FieldDes)) (i : Nat) :
    fieldOffset (f :: rest) (i + 1) = fieldWidth f.2 + fieldOffset rest i := by
  simp [fieldOffset, List.take_succ_cons]

theorem visibleFieldsAt_mem (visible : List String) :
    ∀ (fields : List (String × FieldDes)) (start i : Nat)
      (hi : i < fields.length),
      visible.contains (fields.get ⟨i, hi⟩).1 = true →
      ((fields.get ⟨i, hi⟩).1, (fields.get ⟨i, hi⟩).2,
          start + fieldOffset fields i) ∈
        visibleFieldsAt visible fields start := by
  intro fields
  induction fields with
  | nil => intro start i hi; exact absurd hi (by simp)
  | cons f rest ih =>
      intro start i hi hv
      cases i with
      | zero =>
          obtain ⟨nm, fd⟩ := f
          simp only [List.get] at hv ⊢
          rw [fieldOffset_zero]
          simp only [visibleFieldsAt, hv, if_pos]
          simp
      | succ j =>
          obtain ⟨nm, fd⟩ := f
          simp only [List.get] at hv ⊢
          rw [fieldOffset_succ, ← Nat.add_assoc]
          have hj : j < rest.length := by
            simp only [List.length_cons] at hi
            omega
          have hmem := ih (start + fieldWidth fd) j hj hv
          simp only [visibleFieldsAt]
          by_cases hv2 : visible.contains nm
          · rw [if_pos hv2]
            exact List.mem_cons_of_mem _ hmem
          · rw [if_neg hv2]
            exact hmem

/-! ## Claim theorems -/

/-- Path of the scalar element of the C1 scenario. -/
def c1path : String := "top.counter"

/-- The C1 scenario database: one uint32 element (collectable id 1, width 4,
not auto-collected) with records tick 5 ↦ payload 7 and tick 6 ↦ payload 9. -/
def c1db : UnpackDB :=
  ⟨[5, 6], 10,
   [(5, [1, 0, 7, 0, 0, 0]), (6, [1, 0, 9, 0, 0, 0])],
   [(1, .pod 4 [])], [], [(c1path, 1)], [(1, .podDes 4)]⟩

/-- C1: on the claim's own scenario the replay phase does reconstruct the
history tick 5 ↦ 7, tick 6 ↦ 9, but `Unpack` then runs
`for value in values_by_tick[tick]` over the scalar's plain `int` values, so
the call raises TypeError instead of returning `{ticks: [5, 6],
values: [7, 9]}`. -/
theorem spec_C1_divergence :
    unpackFilterRecords c1db (some (5, 6)) = .ok c1db.records ∧
    unpackReplay c1db c1db.records = .ok [(1, .pod 4 [(5, 7), (6, 9)])] ∧
    unpack c1db c1path (some (5, 6)) = .error .typeError :=
  ⟨rfl, rfl, rfl⟩

/-- Payload of the first C2 write (16 bytes of 7). -/
def c2v1 : List Nat := List.replicate 16 7

/-- Payload of the second C2 write (16 bytes of 9). -/
def c2v2 : List Nat := List.replicate 16 9

/-- C2 record stream before the scan-start split. -/
def c2rs1 : List (Nat × SAct) := [(0, .write c2v1), (1, .carry)]

/-- C2 record stream from the scan-start tick on. -/
def c2rs2 : List (Nat × SAct) := [(2, .write c2v2), (3, .carry)]

/-- History produced by replaying all four C2 records from tick 0. -/
def c2H : List (Nat × List Nat) := [(0, c2v1), (1, c2v1), (2, c2v2), (3, c2v2)]

/-- C2 counterexample: ticks 0..3 with records WRITE, CARRY, WRITE, CARRY,
heartbeat 2 and lower bound 3 put the scan start at tick 1; replaying from
tick 0 reconstructs value(3), but replaying from the scan start hits the
CARRY at tick 1 with no prior value and dies with a KeyError instead of
producing the same value. -/
theorem spec_C2_counterexample :
    findStartTime [0, 1, 2, 3] 2 3 = some 1 ∧
    sRun 16 [] (c2rs1 ++ c2rs2) = .ok c2H ∧
    alGet c2H 3 = some c2v2 ∧
    sRun 16 [] [(1, SAct.carry), (2, .write c2v2), (3, SAct.carry)] =
      .error .keyError :=
  ⟨rfl, rfl, by decide, rfl⟩

/-- C2 (amended): the scan start is the tick at position `max(0, i −
heartbeat)` of the global distinct-tick list exactly as the spec words it
(unconditionally), and replaying from the scan start reproduces the full
replay's value at the bound `b` provided the record stream at the scan
start opens with a WRITE — the guarantee the heartbeat exists to provide. -/
theorem spec_C2_amended (timeVals : List Nat) (hb lo : Nat)
    (w : Nat) (hw : 16 ≤ w)
    (rs1 rs2 : List (Nat × SAct)) (H : List (Nat × List Nat))
    (hwf : ∀ r ∈ rs1 ++ rs2, ∀ v, r.2 = SAct.write v → v.length = w)
    (hp : List.Pairwise (· < ·) ((rs1 ++ rs2).map Prod.fst))
    (hrun : sRun w [] (rs1 ++ rs2) = .ok H)
    (s : Nat) (h1lt : ∀ r ∈ rs1, r.1 < s) (h2ge : ∀ r ∈ rs2, s ≤ r.1)
    (hhead : ∀ r, rs2.head? = some r → ∃ v, r.2 = SAct.write v)
    (b : Nat) (hsb : s ≤ b) :
    findStartTime timeVals hb lo = specScanStart timeVals hb lo ∧
    ∃ H2, sRun w [] rs2 = .ok H2 ∧ alGet H2 b = alGet H b :=
  ⟨findStartTime_eq_spec timeVals hb lo,
   sRun_lookback w hw rs1 rs2 H hwf hp hrun s h1lt h2ge hhead b hsb⟩

/-- Concrete instance of the amended C2: heartbeat 1, lower bound 3, scan
start at tick 2 whose record is a WRITE. -/
theorem spec_C2_witness :
    findStartTime [0, 1, 2, 3] 1 3 = specScanStart [0, 1, 2, 3] 1 3 ∧
    ∃ H2, sRun 16 [] c2rs2 = .ok H2 ∧ alGet H2 3 = alGet c2H 3 :=
  spec_C2_amended [0, 1, 2, 3] 1 3 16 (by decide) c2rs1 c2rs2 c2H
    (by
      intro r hr v hv
      simp only [c2rs1, c2rs2, List.cons_append, List.nil_append,
        List.mem_cons, List.not_mem_nil, or_false] at hr
      rcases hr with rfl | rfl | rfl | rfl <;> simp_all [c2v1, c2v2] <;>
        simp [← hv, c2v1, c2v2])
    (by decide) rfl 2 (by decide) (by decide)
    (by
      intro r hr
      simp only [c2rs2, List.head?_cons, Option.some.injEq] at hr
      subst hr
      exact ⟨c2v2, rfl⟩)
    3 (by decide)

/-- C3: for a width-≥16 auto-collected scalar/struct element, any tick `t`
whose record is CARRY ends with `value(t)` equal to the value of the
nearest earlier tick that has a recorded value. -/
theorem spec_C3_carry (w : Nat) (hw : 16 ≤ w)
    (rs : List (Nat × SAct)) (H : List (Nat × List Nat))
    (hp : List.Pairwise (· < ·) (rs.map Prod.fst))
    (hrun : sRun w [] rs = .ok H)
    (t : Nat) (hc : (t, SAct.carry) ∈ rs) :
    ∃ pt, getLastTick H t = some pt ∧ pt < t ∧
      alGet H t = alGet H pt ∧ (alGet H t).isSome :=
  sRun_carry_forward w hw rs H hp hrun t hc

/-- The C3 record stream of the witness: a WRITE at tick 10 and a CARRY at
tick 11. -/
def c3rs : List (Nat × SAct) := [(10, .write c2v1), (11, SAct.carry)]

/-- History replayed from the C3 witness stream. -/
def c3H : List (Nat × List Nat) := [(10, c2v1), (11, c2v1)]

/-- Concrete instance of C3: the CARRY at tick 11 copies tick 10's value. -/
theorem spec_C3_witness :
    ∃ pt, getLastTick c3H 11 = some pt ∧ pt < 11 ∧
      alGet c3H 11 = alGet c3H pt ∧ (alGet c3H 11).isSome :=
  spec_C3_carry 16 (by decide) c3rs c3H (by decide) rfl 11 (by decide)

/-- First struct of the C4 scenario (8 bytes of 1). -/
def c4S1 : List Nat := List.replicate 8 1

/-- Second struct of the C4 scenario (8 bytes of 2). -/
def c4S2 : List Nat := List.replicate 8 2

/-- Third struct of the C4 scenario (8 bytes of 3). -/
def c4S3 : List Nat := List.replicate 8 3

/-- C4 counterexample: after an initial FULL record (count 0) a DEPART and
an ARRIVE give N = 1 ≥ M = 1, yet the replay raises IndexError on the
DEPART of the empty list — `N ≥ M` over the whole stream is not enough for
the claimed resulting list to exist. -/
theorem spec_C4_counterexample :
    contigRun 8 ⟨Option.none, []⟩
      [(0, .qfull []), (1, Act.qdepart), (2, .qarrive c4S3)] =
      .error .indexError ∧
    (arrivalsOf [(0, Act.qfull []), (1, Act.qdepart),
      (2, Act.qarrive c4S3)]).length =
      departsOf [(0, Act.qfull []), (1, Act.qdepart), (2, Act.qarrive c4S3)] :=
  ⟨rfl, rfl⟩

/-- C4 (amended): whenever the replay of ARRIVE/DEPART records after a FULL
succeeds, the resulting list is the arrival-ordered survivors — the first
`M` of `initial ++ arrivals` removed, oldest survivor at index 0 — so its
length is `initial_length + N − M`; and the claim's concrete scenario
(FULL [S1,S2]; ARRIVE S3; DEPART) yields per-tick lists `[S1,S2]`,
`[S1,S2,S3]`, `[S2,S3]`. -/
theorem spec_C4_amended (W : Nat) (tas : List (Nat × Act))
    (L : List (List Nat)) (hist : List (Nat × List (List Nat)))
    (fin : ContigSt)
    (hkinds : ∀ ta ∈ tas, (∃ p, ta.2 = Act.qarrive p ∧ p.length = W) ∨
      ta.2 = Act.qdepart)
    (hrun : contigRun W ⟨some L, hist⟩ tas = .ok fin) :
    (fin.values = some ((L ++ arrivalsOf tas).drop (departsOf tas)) ∧
      departsOf tas ≤ L.length + (arrivalsOf tas).length ∧
      ((L ++ arrivalsOf tas).drop (departsOf tas)).length =
        L.length + (arrivalsOf tas).length - departsOf tas) ∧
    contigRun 8 ⟨Option.none, []⟩
      [(0, .qfull [c4S1, c4S2]), (1, .qarrive c4S3), (2, Act.qdepart)] =
      .ok ⟨some [c4S2, c4S3],
        [(0, [c4S1, c4S2]), (1, [c4S1, c4S2, c4S3]), (2, [c4S2, c4S3])]⟩ := by
  have hd := contigRun_deltas W tas L hist fin hkinds hrun
  refine ⟨⟨hd.1, hd.2, ?_⟩, rfl⟩
  simp [List.length_drop, List.length_append]

/-- Concrete instance of the amended C4: from `[S1,S2]` one ARRIVE and one
DEPART leave `[S2,S3]`. -/
theorem spec_C4_witness :
    ((⟨some [c4S2, c4S3],
        [(0, [c4S1, c4S2]), (1, [c4S1, c4S2, c4S3]),
         (2, [c4S2, c4S3])]⟩ : ContigSt).values =
      some (([c4S1, c4S2] ++
        arrivalsOf [(1, Act.qarrive c4S3), (2, Act.qdepart)]).drop
        (departsOf [(1, Act.qarrive c4S3), (2, Act.qdepart)])) ∧
      departsOf [(1, Act.qarrive c4S3), (2, Act.qdepart)] ≤
        ([c4S1, c4S2] : List (List Nat)).length +
          (arrivalsOf [(1, Act.qarrive c4S3), (2, Act.qdepart)]).length ∧
      ((([c4S1, c4S2] : List (List Nat)) ++
        arrivalsOf [(1, Act.qarrive c4S3), (2, Act.qdepart)]).drop
        (departsOf [(1, Act.qarrive c4S3), (2, Act.qdepart)])).length =
        ([c4S1, c4S2] : List (List Nat)).length +
          (arrivalsOf [(1, Act.qarrive c4S3), (2, Act.qdepart)]).length -
          departsOf [(1, Act.qarrive c4S3), (2, Act.qdepart)]) ∧
    contigRun 8 ⟨Option.none, []⟩
      [(0, .qfull [c4S1, c4S2]), (1, .qarrive c4S3), (2, Act.qdepart)] =
      .ok ⟨some [c4S2, c4S3],
        [(0, [c4S1, c4S2]), (1, [c4S1, c4S2, c4S3]), (2, [c4S2, c4S3])]⟩ :=
  spec_C4_amended 8 [(1, Act.qarrive c4S3), (2, Act.qdepart)]
    [c4S1, c4S2] [(0, [c4S1, c4S2])]
    ⟨some [c4S2, c4S3],
      [(0, [c4S1, c4S2]), (1, [c4S1, c4S2, c4S3]), (2, [c4S2, c4S3])]⟩
    (by
      intro ta hta
      simp only [List.mem_cons, List.not_mem_nil, or_false] at hta
      rcases hta with rfl | rfl
      · exact Or.inl ⟨c4S3, rfl, by decide⟩
      · exact Or.inr rfl)
    rfl

/-- Struct written by the first C5 dump (4 bytes of 7). -/
def c5A : List Nat := [7, 7, 7, 7]

/-- Struct written by the second C5 dump (4 bytes of 9). -/
def c5B : List Nat := [9, 9, 9, 9]

/-- C5 counterexample: a capacity-2 sparse replayer, a dump writing bucket 0
at tick 0 and a dump with `valid_count = 1` writing bucket 1 at tick 1.
The values array is never re-emptied between ticks, so after the second
dump 2 buckets are non-empty, not `k = 1`. -/
theorem spec_C5_counterexample :
    spReplay 4 2 ⟨List.replicate 2 Option.none, []⟩ 0
      (encodeAct (.sdump [(0, c5A)])) true =
      .ok (⟨[some c5A, Option.none], [(0, [some c5A, Option.none])]⟩, 8) ∧
    spReplay 4 2 ⟨[some c5A, Option.none], [(0, [some c5A, Option.none])]⟩ 1
      (encodeAct (.sdump [(1, c5B)])) true =
      .ok (⟨[some c5A, some c5B],
        [(0, [some c5A, Option.none]), (1, [some c5A, some c5B])]⟩, 8) ∧
    ((Finset.range 2).filter
      (fun i => (([some c5A, some c5B].getD i Option.none)).isSome = true)).card
      = 2 ∧
    ¬ (2 : Nat) = 1 :=
  ⟨rfl, rfl, by decide, by decide⟩

/-- C5 (amended): a dump decoded into an all-empty values array (the state
`Reset` installs) with in-range, pairwise distinct bucket indices and
`valid_count = k` ends with exactly `k` non-empty buckets, each struct at
its declared bucket index; across ticks, however, the array is carried
over, not re-emptied. -/
theorem spec_C5_amended (W cap : Nat)
    (hist : List (Nat × List (Option (List Nat)))) (t : Nat)
    (entries : List (Nat × List Nat)) (rest : List Nat)
    (hk : entries.length < 65536)
    (hbins : ∀ e ∈ entries, e.1 < 65536)
    (hlt : ∀ e ∈ entries, e.1 < cap)
    (hws : ∀ e ∈ entries, e.2.length = W)
    (hnd : (entries.map Prod.fst).Nodup) :
    ∃ out,
      spReplay W cap ⟨List.replicate cap Option.none, hist⟩ t
          (encodeAct (.sdump entries) ++ rest) true =
        .ok (⟨out, alInsert hist t out⟩,
          2 + entries.length * 2 + entries.length * W) ∧
      (∀ e ∈ entries, out.getD e.1 Option.none = some e.2) ∧
      ((Finset.range cap).filter
        (fun i => (out.getD i Option.none).isSome = true)).card =
        entries.length := by
  rcases spWrites_char cap entries (List.replicate cap Option.none)
    (by simp) hlt hnd with ⟨out, hfold, hoLen, hset, hpres⟩
  refine ⟨out, ?_, hset, sp_fresh_count cap entries out hlt hnd hset hpres⟩
  rw [spReplay_dump W cap ⟨List.replicate cap Option.none, hist⟩ t entries
    rest hk hbins hws]
  dsimp only
  rw [hfold]

/-- Concrete instance of the amended C5: one dump of bucket 0 into an empty
capacity-2 array leaves exactly one non-empty bucket. -/
theorem spec_C5_witness :
    ∃ out,
      spReplay 4 2 ⟨List.replicate 2 Option.none, []⟩ 0
          (encodeAct (.sdump [(0, c5A)]) ++ []) true =
        .ok (⟨out, alInsert [] 0 out⟩, 2 + 1 * 2 + 1 * 4) ∧
      (∀ e ∈ [(0, c5A)], out.getD e.1 Option.none = some e.2) ∧
      ((Finset.range 2).filter
        (fun i => (out.getD i Option.none).isSome = true)).card = 1 :=
  spec_C5_amended 4 2 [] 0 [(0, c5A)] [] (by decide) (by decide) (by decide)
    (by decide) (by decide)

/-- C6: every successful `Replay` call on a well-formed record consumes
exactly the action table's byte count for its class and width, and on a
blob of back-to-back records the 2 id bytes plus the consumed counts tile
the blob exactly — the demultiplex loop ends precisely at the blob's end
with the record-level result and zero leftover. -/
theorem spec_C6_exact (autoCids : List Nat) (t : Nat)
    (recs : List (Nat × Act)) (reps reps' : List (Nat × Replayer))
    (ns : List Nat)
    (hwf : ∀ p ∈ recs, ∃ kw, kwOf reps p.1 = some kw ∧
      wfActB kw.1 kw.2 (autoCids.contains p.1) p.2 = true)
    (hcid : ∀ p ∈ recs, p.1 < 65536)
    (hrun : runRecordsC autoCids t recs reps = .ok (reps', ns)) :
    ns = recs.map (fun p =>
      match kwOf reps p.1 with
      | some kw => actSize kw.2 p.2
      | Option.none => 0) ∧
    (blobOfRecords recs).length = (ns.map (fun n => 2 + n)).sum ∧
    ∀ fuel, (blobOfRecords recs).length < fuel → recs ≠ [] →
      demuxGo autoCids t fuel (blobOfRecords recs) reps = .ok reps' := by
  have h := demux_flatten autoCids t recs reps reps' ns hwf hcid hrun
  exact ⟨h.2.2.1, h.2.1, h.2.2.2⟩

/-- Replayer registry of the C6 witness: a uint32 POD and an auto-collected
contiguous container of width 8. -/
def c6reps : List (Nat × Replayer) :=
  [(1, .pod 4 []), (2, .contig 8 4 ⟨Option.none, []⟩)]

/-- Records of the C6 witness tick: a direct POD write, a FULL of one
struct, and a DEPART. -/
def c6recs : List (Nat × Act) :=
  [(1, .direct [7, 0, 0, 0]), (2, .qfull [c4S1]), (2, Act.qdepart)]

/-- Registry after replaying the C6 witness tick. -/
def c6reps2 : List (Nat × Replayer) :=
  [(1, .pod 4 [(5, 7)]), (2, .contig 8 4 ⟨some [], [(5, [])]⟩)]

/-- Concrete instance of C6: the three records consume 4, 11 and 1 bytes —
the table's width, 3 + count·W and DEPART's 1 — and 6 + 13 + 3 = 22 bytes
tile the 22-byte blob exactly. -/
theorem spec_C6_witness :
    ([4, 11, 1] : List Nat) = c6recs.map (fun p =>
      match kwOf c6reps p.1 with
      | some kw => actSize kw.2 p.2
      | Option.none => 0) ∧
    (blobOfRecords c6recs).length =
      (([4, 11, 1] : List Nat).map (fun n => 2 + n)).sum ∧
    demuxGo [2] 5 23 (blobOfRecords c6recs) c6reps = .ok c6reps2 := by
  have h := spec_C6_exact [2] 5 c6recs c6reps c6reps2 [4, 11, 1]
    (by
      intro p hp
      simp only [c6recs, List.mem_cons, List.not_mem_nil, or_false] at hp
      rcases hp with rfl | rfl | rfl
      · exact ⟨(0, 4), rfl, by decide⟩
      · exact ⟨(2, 8), rfl, by decide⟩
      · exact ⟨(2, 8), rfl, by decide⟩)
    (by
      intro p hp
      simp only [c6recs, List.mem_cons, List.not_mem_nil, or_false] at hp
      rcases hp with rfl | rfl | rfl <;> decide)
    rfl
  exact ⟨h.1, h.2.1, h.2.2 23 (by decide) (by simp [c6recs])⟩

/-- C7 counterexample: a contiguous-container replayer handed a CARRY
before any FULL record silently succeeds — state unchanged, one byte
consumed — instead of raising any error. -/
theorem spec_C7_counterexample :
    Replayer.Replay (.contig 8 4 ⟨Option.none, []⟩) 0 [4] true =
      .ok (.contig 8 4 ⟨Option.none, []⟩, 1) :=
  rfl

/-- C7 (amended): a scalar/struct or POD replayer raises a KeyError (the
`values_by_tick[None]` lookup) on a CARRY with no prior value, while the
container replayer's `if self.values is not None` guard makes it skip such
a CARRY silently, returning its state unchanged. -/
theorem spec_C7_amended (w : Nat) (hw : 16 ≤ w) (t : Nat)
    (st : ContigSt) (tick : Nat) (hv : st.values = Option.none) :
    ssReplay w [] t [1] true = .error .keyError ∧
    podReplay w [] t [1] true = .error .keyError ∧
    cqReplay w st tick [4] true = .ok (st, 1) := by
  refine ⟨?_, ?_, ?_⟩
  · rw [ssReplay_carry16 w [] t hw, getLastTick_nil]
  · unfold podReplay
    rw [if_neg (by simp; omega)]
    norm_num
    rw [getLastTick_nil]
  · unfold cqReplay
    rw [if_neg (by simp)]
    norm_num
    rw [hv]

/-- Concrete instance of the amended C7 at width 16. -/
theorem spec_C7_witness :
    ssReplay 16 [] 3 [1] true = .error .keyError ∧
    podReplay 16 [] 3 [1] true = .error .keyError ∧
    cqReplay 16 (⟨Option.none, []⟩ : ContigSt) 2 [4] true =
      .ok (⟨Option.none, []⟩, 1) :=
  spec_C7_amended 16 (by decide) 3 ⟨Option.none, []⟩ 2 rfl

/-- C8 counterexample: requesting a tick other than the cached one does not
recompute anything — every container reports 0 — even when the container
demonstrably holds 3 elements at that tick; and the constructor's cache
(cached tick `None`, never assigned) makes every request return zeros. -/
theorem spec_C8_counterexample :
    getIterableSizesByCollectionID ⟨[], Option.none⟩ [1] 6 = [(1, 0)] ∧
    getIterableSizesByCollectionID ⟨[(1, 3)], some 5⟩ [1] 6 = [(1, 0)] ∧
    contigRun 8 ⟨Option.none, []⟩ [(6, .qfull [c4S1, c4S2, c4S3])] =
      .ok ⟨some [c4S1, c4S2, c4S3], [(6, [c4S1, c4S2, c4S3])]⟩ ∧
    ¬ (0 : Nat) = 3 :=
  ⟨rfl, rfl, rfl, by decide⟩

/-- C8 (amended): `GetIterableSizesByCollectionID` consults only the
single-slot cache; on any request whose tick differs from the cached tick
(in particular always, with the never-assigned initial cache) it performs
no scan and reports size 0 for every container id. -/
theorem spec_C8_amended (cache : UtilizCache) (ids : List Nat) (tv : Nat)
    (hmiss : ∀ ct, cache.timeVal = some ct → ¬ tv = ct) :
    getIterableSizesByCollectionID cache ids tv =
      ids.map (fun i => (i, 0)) ∧
    ∀ i n, (i, n) ∈ getIterableSizesByCollectionID cache ids tv → n = 0 := by
  have h1 : getIterableSizesByCollectionID cache ids tv =
      ids.map (fun i => (i, 0)) := by
    unfold getIterableSizesByCollectionID
    cases hct : cache.timeVal with
    | none => rfl
    | some ct =>
        dsimp only
        rw [if_neg (hmiss ct hct)]
  refine ⟨h1, ?_⟩
  intro i n hm
  rw [h1] at hm
  rcases List.mem_map.mp hm with ⟨j, _, he⟩
  cases he
  rfl

/-- Concrete instance of the amended C8: cached tick 5, requested tick 6. -/
theorem spec_C8_witness :
    getIterableSizesByCollectionID ⟨[(1, 3)], some 5⟩ [1] 6 =
      ([1] : List Nat).map (fun i => (i, 0)) ∧
    ∀ i n, (i, n) ∈ getIterableSizesByCollectionID ⟨[(1, 3)], some 5⟩ [1] 6 →
      n = 0 :=
  spec_C8_amended ⟨[(1, 3)], some 5⟩ [1] 6
    (by
      intro ct hct
      simp only [UtilizCache.mk.injEq] at hct ⊢
      cases hct
      decide)

/-- A path unknown to the catalog. -/
def c9path : String := "top.missing"

/-- Database of the C9 scenario: one known path (`c1path`). -/
def c9db : UnpackDB :=
  ⟨[5], 1, [], [(1, .pod 4 [])], [], [(c1path, 1)], [(1, .podDes 4)]⟩

/-- C9 counterexample: resolving an unknown path does not fail at all —
`GetElemID` is a plain `dict.get` returning `None` — and the `Unpack` call
then dies with a generic KeyError, not a dedicated unknown-path error. -/
theorem spec_C9_counterexample :
    getElemID [(c1path, 1)] c9path = Option.none ∧
    unpack c9db c9path Option.none = .error .keyError :=
  ⟨rfl, rfl⟩

/-- C9 (amended): for a path absent from the catalog, `GetElemID` returns
`None` rather than raising, and no `Unpack` call on that path ever returns
a value (it fails, surfacing as a KeyError). -/
theorem spec_C9_amended (db : UnpackDB) (elemPath : String)
    (timeRange : Option (Nat × Nat))
    (h : alGet db.paths elemPath = Option.none) :
    getElemID db.paths elemPath = Option.none ∧
    ∀ res, ¬ unpack db elemPath timeRange = .ok res := by
  refine ⟨h, ?_⟩
  intro res hok
  unfold unpack at hok
  cases hf : unpackFilterRecords db timeRange with
  | error e => rw [hf] at hok; exact absurd hok (by simp)
  | ok recs =>
      rw [hf] at hok
      dsimp only at hok
      cases hr : unpackReplay db recs with
      | error e => rw [hr] at hok; exact absurd hok (by simp)
      | ok reps =>
          rw [hr] at hok
          dsimp only at hok
          unfold unpackExtract at hok
          rw [h] at hok
          exact absurd hok (by simp)

/-- Concrete instance of the amended C9 on the unknown path. -/
theorem spec_C9_witness :
    getElemID c9db.paths c9path = Option.none ∧
    ¬ unpack c9db c9path Option.none = .ok ([], []) :=
  ⟨(spec_C9_amended c9db c9path Option.none rfl).1,
   (spec_C9_amended c9db c9path Option.none rfl).2 ([], [])⟩

/-- First declared field name of the C10 scenario. -/
def c10a : String := "fa"

/-- Second declared field name of the C10 scenario. -/
def c10b : String := "fb"

/-- Declared layout of the C10 scenario: a 2-byte field then a 1-byte
field. -/
def c10fields : List (String × FieldDes) := [(c10a, .podD 2), (c10b, .podD 1)]

/-- C10 counterexample: with the empty visibility set — a visibility set
like any other under the claim — `Deserialize` trips its
`assert len(visible) > 0` instead of returning the (empty) map. -/
theorem spec_C10_counterexample :
    structDeserialize c10fields [] [7, 0, 9] = .error .assertError :=
  rfl

/-- C10 (amended): for a non-empty visibility set, struct deserialisation
equals decoding exactly the visible declared fields, each from the byte
window at its fixed offset — the summed widths of all earlier declared
fields, hidden ones included — so the emitted keys are the declared names
in the visibility set in declared order, and hiding or showing one field
never moves another field's window. -/
theorem spec_C10_amended (fields : List (String × FieldDes))
    (visible : List String) (blob : List Nat)
    (hvis : ¬ visible.length = 0) :
    structDeserialize fields visible blob =
      decodeAll blob (visibleFieldsAt visible fields 0) ∧
    (visibleFieldsAt visible fields 0).map Prod.fst =
      (fields.filter (fun f => visible.contains f.1)).map Prod.fst ∧
    ∀ i (hi : i < fields.length),
      visible.contains (fields.get ⟨i, hi⟩).1 = true →
      ((fields.get ⟨i, hi⟩).1, (fields.get ⟨i, hi⟩).2, fieldOffset fields i) ∈
        visibleFieldsAt visible fields 0 := by
  refine ⟨?_, visibleFieldsAt_keys visible fields 0, ?_⟩
  · unfold structDeserialize
    rw [if_neg hvis]
    rw [sdGo_eq_spec blob visible fields 0 []]
    cases h : decodeAll blob (visibleFieldsAt visible fields 0) with
    | error e => simp [Except.map]
    | ok l => simp [Except.map]
  · intro i hi hv
    have := visibleFieldsAt_mem visible fields 0 i hi hv
    simpa using this

/-- Concrete instance of the amended C10: only the second field visible,
decoded from offset 2 = the hidden first field's width. -/
theorem spec_C10_witness :
    structDeserialize c10fields [c10b] [7, 0, 9] =
      decodeAll [7, 0, 9] (visibleFieldsAt [c10b] c10fields 0) ∧
    (visibleFieldsAt [c10b] c10fields 0).map Prod.fst =
      (c10fields.filter (fun f => List.contains [c10b] f.1)).map Prod.fst ∧
    ∀ i (hi : i < c10fields.length),
      List.contains [c10b] (c10fields.get ⟨i, hi⟩).1 = true →
      ((c10fields.get ⟨i, hi⟩).1, (c10fields.get ⟨i, hi⟩).2,
          fieldOffset c10fields i) ∈
        visibleFieldsAt [c10b] c10fields 0 :=
  spec_C10_amended c10fields [c10b] [7, 0, 9] (by decide)
